import Mathlib

/-!
Verification development for `mo::SegmentTree` and `mo::math::DynMatrix` / `mo::math::Matrix`

Shallow embedding of `include/mo/segtree.hpp` and `include/mo/math/matrix.hpp`.

Conventions of the embedding

* C++ `int` indices, sizes and dimensions are modelled by `Nat`.  Every index the segment
  tree computes is at most `2 * n`, so the model coincides with the code whenever `2 * n`
  fits in an `int` (beyond that the C++ program has undefined behaviour).  The exponent of
  `pow` is an `Int`.
* `std::vector<T>` is a `List T`; a read `t[i]` is `t.getD i d` (the default `d` is only
  produced outside the bounds of the vector, where the C++ read is undefined), a write
  `t[i] = x` is `t.set i x`.  The array `values[N][M]` of the static matrix is a list of
  rows as well; its fixed shape is the predicate `Matrix.WF`.
* The template parameters `op` and `e` of the segment tree, and the operation table
  `T::zero`, `T::plus`, `T::neg`, `T::one`, `T::mul` of the matrix element structure (the
  concepts live in headers outside this development), are parameters of the embedded
  functions.
* Counting `for` loops are folds over `List.range` or recursions on the counter.  The
  halving loops of `update`, `add`, `query` and `pow` are given fuel and return `none` when
  it runs out; the callers pass a bound on the trip count as fuel.
* A failed `assert` is `none`.
* `Matrix::identity` and `Matrix::pow` are not embedded: `identity` starts with
  `Matrix result(N, M);`, and the static class declares no such constructor.
-/

namespace mo

/-! ## Segment tree: `include/mo/segtree.hpp` -/

/-- The two data members of `SegmentTree<T, op, e>`: the storage `t` and the leaf count `n`. -/
structure SegmentTree (T : Type) where
  t : List T
  n : Nat

namespace SegmentTree

variable {T : Type}

/-- Method `build(int n)`: `this->n = n; t.assign(2 * n, e());`. -/
def buildN (e : T) (n : Nat) : SegmentTree T :=
  { t := List.replicate (2 * n) e, n := n }

/-- The call `std::copy(v.begin(), v.end(), t.begin() + k)`: element-wise assignment of `v`
into `t` starting at position `k`. -/
def copyAt : List T → Nat → List T → List T
  | [], _, t => t
  | x :: xs, k, t => copyAt xs (k + 1) (t.set k x)

/-- The loop `for (int i = n - 1; i > 0; i--) t[i] = op(t[i << 1], t[i << 1 | 1]);`,
started at counter value `i`. -/
def buildLoop (op : T → T → T) (e : T) : Nat → List T → List T
  | 0, t => t
  | i + 1, t =>
    buildLoop op e i
      (t.set (i + 1) (op (t.getD ((i + 1) <<< 1) e) (t.getD (((i + 1) <<< 1) ||| 1) e)))

/-- Method `build(std::vector<T> &v)`. -/
def build (op : T → T → T) (e : T) (v : List T) : SegmentTree T :=
  let n := v.length
  let t := List.replicate (2 * n) e
  let t := copyAt v n t
  { t := buildLoop op e (n - 1) t, n := n }

/-- The loop `for (...; p > 1; p >>= 1) t[p >> 1] = op(t[p], t[p ^ 1]);` shared verbatim by
`update` and `add`, entered after the leaf has been written. -/
def climb (op : T → T → T) (e : T) : Nat → Nat → List T → Option (List T)
  | 0, p, t => if p > 1 then none else some t
  | fuel + 1, p, t =>
    if p > 1 then
      climb op e fuel (p >>> 1) (t.set (p >>> 1) (op (t.getD p e) (t.getD (p ^^^ 1) e)))
    else some t

/-- Method `update(int p, T value)`. -/
def update (op : T → T → T) (e : T) (s : SegmentTree T) (p : Nat) (value : T) :
    Option (SegmentTree T) :=
  let p := p + s.n
  (climb op e p p (s.t.set p value)).map fun t => { t := t, n := s.n }

/-- Method `get(int p)`: `return t[p + n];`. -/
def get (e : T) (s : SegmentTree T) (p : Nat) : T :=
  s.t.getD (p + s.n) e

/-- Method `add(int p, T value)`. -/
def add (op : T → T → T) (e : T) (s : SegmentTree T) (p : Nat) (value : T) :
    Option (SegmentTree T) :=
  let p := p + s.n
  (climb op e p p (s.t.set p (op (s.t.getD p e) value))).map fun t => { t := t, n := s.n }

/-- The loop of `query(int l, int r)`:
`for (...; l < r; l >>= 1, r >>= 1) { if (l & 1) accl = op(accl, t[l++]); if (r & 1) accr = op(t[--r], accr); }`
on the state `(l, r, accl, accr)`; it returns the two accumulators. -/
def queryLoop (op : T → T → T) (e : T) (t : List T) : Nat → Nat → Nat → T → T → Option (T × T)
  | 0, l, r, accl, accr => if l < r then none else some (accl, accr)
  | fuel + 1, l, r, accl, accr =>
    if l < r then
      let accl1 := if l &&& 1 = 1 then op accl (t.getD l e) else accl
      let l1 := if l &&& 1 = 1 then l + 1 else l
      let r1 := if r &&& 1 = 1 then r - 1 else r
      let accr1 := if r &&& 1 = 1 then op (t.getD r1 e) accr else accr
      queryLoop op e t fuel (l1 >>> 1) (r1 >>> 1) accl1 accr1
    else some (accl, accr)

/-- Method `query(int l, int r)`. -/
def query (op : T → T → T) (e : T) (s : SegmentTree T) (l r : Nat) : Option T :=
  (queryLoop op e s.t (r + s.n + 1) (l + s.n) (r + s.n) e e).map fun acc => op acc.1 acc.2

end SegmentTree

/-- The monoid laws the segment tree relies on: `op` associative, `e` a two-sided identity. -/
structure IsMonoid {T : Type} (op : T → T → T) (e : T) : Prop where
  assoc : ∀ a b c, op (op a b) c = op a (op b c)
  id_left : ∀ a, op e a = a
  id_right : ∀ a, op a e = a

/-- Reference fold of the specification: `op(...op(op(e, v[l]), v[l+1])..., v[r-1])`. -/
def foldRange {T : Type} (op : T → T → T) (e : T) (v : List T) (l r : Nat) : T :=
  ((v.drop l).take (r - l)).foldl op e

/-- The internal-node identity of the storage: `t[i] = op(t[2i], t[2i+1])` for `i ∈ [1, n)`. -/
def NodeInv {T : Type} (op : T → T → T) (e : T) (t : List T) (n : Nat) : Prop :=
  ∀ i, 1 ≤ i → i < n → t.getD i e = op (t.getD (2 * i) e) (t.getD (2 * i + 1) e)

/-- A call made by a user of the tree after `build`: `update(p, value)` or `add(p, value)`. -/
inductive PointOp (T : Type) where
  | update (p : Nat) (value : T)
  | add (p : Nat) (value : T)

/-- The leaf position a call addresses. -/
def PointOp.pos {T : Type} : PointOp T → Nat
  | .update p _ => p
  | .add p _ => p

/-- One call on the tree. -/
def SegmentTree.step {T : Type} (op : T → T → T) (e : T) (s : SegmentTree T) :
    PointOp T → Option (SegmentTree T)
  | .update p value => SegmentTree.update op e s p value
  | .add p value => SegmentTree.add op e s p value

/-- A finite sequence of calls, executed in order. -/
def SegmentTree.run {T : Type} (op : T → T → T) (e : T) :
    SegmentTree T → List (PointOp T) → Option (SegmentTree T)
  | s, [] => some s
  | s, o :: os => (SegmentTree.step op e s o).bind fun s1 => SegmentTree.run op e s1 os

/-- Indices of `t` touched by the loop of `update` and `add` entered at `p`, in program
order: every iteration reads `t[p]` and `t[p ^ 1]` and writes `t[p >> 1]`. -/
def SegmentTree.climbTrace : Nat → Nat → Option (List Nat)
  | 0, p => if p > 1 then none else some []
  | fuel + 1, p =>
    if p > 1 then
      (SegmentTree.climbTrace fuel (p >>> 1)).map fun rest =>
        p :: (p ^^^ 1) :: (p >>> 1) :: rest
    else some []

/-- Indices of `t` touched by `update(p, value)` on a tree with `n` leaves: the write of
`t[p += n]`, then the loop. -/
def SegmentTree.updateTrace (n p : Nat) : Option (List Nat) :=
  let p := p + n
  (SegmentTree.climbTrace p p).map fun rest => p :: rest

/-- Indices of `t` touched by `add(p, value)` on a tree with `n` leaves: the read and the
write of `t[p]` after `p += n`, then the loop. -/
def SegmentTree.addTrace (n p : Nat) : Option (List Nat) :=
  let p := p + n
  (SegmentTree.climbTrace p p).map fun rest => p :: p :: rest

/-- Indices of `t` read by the loop of `query` entered at `(l, r)`, in program order:
`t[l++]` when `l` is odd, `t[--r]` when `r` is odd. -/
def SegmentTree.queryLoopTrace : Nat → Nat → Nat → Option (List Nat)
  | 0, l, r => if l < r then none else some []
  | fuel + 1, l, r =>
    if l < r then
      let readl := if l &&& 1 = 1 then [l] else []
      let l1 := if l &&& 1 = 1 then l + 1 else l
      let r1 := if r &&& 1 = 1 then r - 1 else r
      let readr := if r &&& 1 = 1 then [r1] else []
      (SegmentTree.queryLoopTrace fuel (l1 >>> 1) (r1 >>> 1)).map fun rest =>
        readl ++ readr ++ rest
    else some []

/-- Indices of `t` read by `query(l, r)` on a tree with `n` leaves. -/
def SegmentTree.queryTrace (n l r : Nat) : Option (List Nat) :=
  SegmentTree.queryLoopTrace (r + n + 1) (l + n) (r + n)

/-- Commutativity of `op`. -/
def IsComm {T : Type} (op : T → T → T) : Prop :=
  ∀ a b, op a b = op b a

/-- An index `i` is a proper ancestor of the node `p`: `i = p >> j` for some `j ≥ 1`. -/
def Ancestor (p i : Nat) : Prop :=
  ∃ j, 1 ≤ j ∧ p / 2 ^ j = i

/-! ## Matrices: `include/mo/math/matrix.hpp` -/

namespace math

/-- Operation table of an element structure satisfying the concept `Monoid`:
`T::zero()` and `T::plus`. -/
structure MonoidOps (V : Type) where
  zero : V
  plus : V → V → V

/-- Operation table of an element structure satisfying the concept `Group`: a `Monoid`
with `T::neg`. -/
structure GroupOps (V : Type) extends MonoidOps V where
  neg : V → V

/-- Operation table of an element structure satisfying the concept `Semiring`: a `Monoid`
with `T::one()` and `T::mul`. -/
structure SemiringOps (V : Type) extends MonoidOps V where
  one : V
  mul : V → V → V

variable {V : Type}

/-- The read `values[i][j]`. -/
def readCell (d : V) (vals : List (List V)) (i j : Nat) : V :=
  (vals.getD i []).getD j d

/-- The write `values[i][j] = x`. -/
def writeCell (vals : List (List V)) (i j : Nat) (x : V) : List (List V) :=
  vals.set i ((vals.getD i []).set j x)

/-- The data members of `DynMatrix<T>`. -/
structure DynMatrix (V : Type) where
  values : List (List V)
  n : Nat
  m : Nat
  isSquare : Bool
deriving DecidableEq

namespace DynMatrix

/-- Constructor `DynMatrix(int N, int M)`: every cell `T::zero()`, `assert(n > 0 && m > 0)`. -/
def new (T : MonoidOps V) (N M : Nat) : Option (DynMatrix V) :=
  if N > 0 ∧ M > 0 then
    some { values := List.replicate N (List.replicate M T.zero), n := N, m := M,
           isSquare := decide (N = M) }
  else none

/-- Static member `identity(int n)`. -/
def identity (T : SemiringOps V) (n : Nat) : Option (DynMatrix V) :=
  if n > 0 then
    (new T.toMonoidOps n n).map fun result =>
      { result with
        values := (List.range n).foldl (fun vals i => writeCell vals i i T.one) result.values }
  else none

/-- Member `operator+(const DynMatrix &other)`. -/
def add (T : MonoidOps V) (a other : DynMatrix V) : Option (DynMatrix V) :=
  if a.n = other.n ∧ a.m = other.m then
    (new T a.n a.m).map fun result =>
      { result with
        values := (List.range a.n).foldl (fun vals i =>
          (List.range a.m).foldl (fun vals j =>
            writeCell vals i j
              (T.plus (readCell T.zero a.values i j) (readCell T.zero other.values i j)))
            vals) result.values }
  else none

/-- Member `operator-(const DynMatrix &other)`. -/
def sub (T : GroupOps V) (a other : DynMatrix V) : Option (DynMatrix V) :=
  if a.n = other.n ∧ a.m = other.m then
    (new T.toMonoidOps a.n a.m).map fun result =>
      { result with
        values := (List.range a.n).foldl (fun vals i =>
          (List.range a.m).foldl (fun vals j =>
            writeCell vals i j
              (T.plus (readCell T.zero a.values i j)
                (T.neg (readCell T.zero other.values i j))))
            vals) result.values }
  else none

/-- Member `operator-()`. -/
def neg (T : GroupOps V) (a : DynMatrix V) : Option (DynMatrix V) :=
  (new T.toMonoidOps a.n a.m).map fun result =>
    { result with
      values := (List.range a.n).foldl (fun vals i =>
        (List.range a.m).foldl (fun vals j =>
          writeCell vals i j (T.neg (readCell T.zero a.values i j)))
          vals) result.values }

/-- Member `operator*(const DynMatrix &other)`: the innermost statement is the plain
assignment `result.values[i][j] = T::mul(values[i][k], other.values[k][j]);`. -/
def mul (T : SemiringOps V) (a other : DynMatrix V) : Option (DynMatrix V) :=
  if a.m = other.n then
    (new T.toMonoidOps a.n other.m).map fun result =>
      { result with
        values := (List.range a.n).foldl (fun vals i =>
          (List.range other.m).foldl (fun vals j =>
            (List.range a.m).foldl (fun vals k =>
              writeCell vals i j
                (T.mul (readCell T.zero a.values i k) (readCell T.zero other.values k j)))
              vals) vals) result.values }
  else none

/-- The loop `while (e > 0) { if (e & 1) result = result * base; e >>= 1; base = base * base; }`
of `pow` on the state `(e, result, base)`. -/
def powLoop (T : SemiringOps V) : Nat → Int → DynMatrix V → DynMatrix V → Option (DynMatrix V)
  | 0, e, result, _ => if e > 0 then none else some result
  | fuel + 1, e, result, base =>
    if e > 0 then
      (if Int.land e 1 ≠ 0 then mul T result base else some result).bind fun result1 =>
        (mul T base base).bind fun base1 => powLoop T fuel (e >>> 1) result1 base1
    else some result

/-- Member `pow(int64_t e)`; a 64-bit exponent is exhausted after at most 64 halvings. -/
def pow (T : SemiringOps V) (a : DynMatrix V) (e : Int) : Option (DynMatrix V) :=
  if a.isSquare then
    (identity T a.n).bind fun result => powLoop T 64 e result a
  else none

/-- The naive loop of repeated multiplication, `k` times `result = result * a` with the
library's `operator*`: the left fold `((result * a) * a) * ... * a`. -/
def mulRepeat (T : SemiringOps V) : Nat → DynMatrix V → DynMatrix V → Option (DynMatrix V)
  | 0, result, _ => some result
  | k + 1, result, a => (mul T result a).bind fun result1 => mulRepeat T k result1 a

/-- The reference for `pow`: `((identity(n) * a) * a) * ... * a` with `k` factors `a`. -/
def naivePow (T : SemiringOps V) (a : DynMatrix V) (k : Nat) : Option (DynMatrix V) :=
  (identity T a.n).bind fun result => mulRepeat T k result a

end DynMatrix

/-- The data member `values[N][M]` of `Matrix<T, N, M>`. -/
structure Matrix (V : Type) (N M : Nat) where
  values : List (List V)
deriving DecidableEq

namespace Matrix

variable {N M K : Nat}

/-- Default constructor `Matrix()`: the loops assign `T::zero()` to every cell of the
`N × M` array. -/
def new (T : MonoidOps V) (N M : Nat) : Matrix V N M :=
  { values := (List.range N).foldl (fun vals i =>
      (List.range M).foldl (fun vals j => writeCell vals i j T.zero) vals)
      (List.replicate N (List.replicate M T.zero)) }

/-- Member `operator+(const Matrix &other)`. -/
def add (T : MonoidOps V) (a other : Matrix V N M) : Matrix V N M :=
  { values := (List.range N).foldl (fun vals i =>
      (List.range M).foldl (fun vals j =>
        writeCell vals i j
          (T.plus (readCell T.zero a.values i j) (readCell T.zero other.values i j)))
        vals) (new T N M).values }

/-- Member `operator-(const Matrix &other)`. -/
def sub (T : GroupOps V) (a other : Matrix V N M) : Matrix V N M :=
  { values := (List.range N).foldl (fun vals i =>
      (List.range M).foldl (fun vals j =>
        writeCell vals i j
          (T.plus (readCell T.zero a.values i j) (T.neg (readCell T.zero other.values i j))))
        vals) (new T.toMonoidOps N M).values }

/-- Member `operator-()`. -/
def neg (T : GroupOps V) (a : Matrix V N M) : Matrix V N M :=
  { values := (List.range N).foldl (fun vals i =>
      (List.range M).foldl (fun vals j =>
        writeCell vals i j (T.neg (readCell T.zero a.values i j)))
        vals) (new T.toMonoidOps N M).values }

/-- Member template `operator*(const Matrix<T, M, K> &other)`: as in `DynMatrix`, the
innermost statement is a plain assignment. -/
def mul (T : SemiringOps V) (a : Matrix V N M) (other : Matrix V M K) : Matrix V N K :=
  { values := (List.range N).foldl (fun vals i =>
      (List.range K).foldl (fun vals j =>
        (List.range M).foldl (fun vals k =>
          writeCell vals i j
            (T.mul (readCell T.zero a.values i k) (readCell T.zero other.values k j)))
          vals) vals) (new T.toMonoidOps N K).values }

end Matrix

/-- A rectangular `n × m` array of cells. -/
def Shaped (vals : List (List V)) (n m : Nat) : Prop :=
  vals.length = n ∧ ∀ row ∈ vals, row.length = m

/-- Class invariant of `DynMatrix`: positive dimensions, `values` is `n × m`, and
`isSquare` records `n == m`. -/
def DynMatrix.WF (a : DynMatrix V) : Prop :=
  0 < a.n ∧ 0 < a.m ∧ Shaped a.values a.n a.m ∧ a.isSquare = decide (a.n = a.m)

/-- Invariant of `Matrix<T, N, M>`: the `static_assert`s `N > 0`, `M > 0` and the array type
`values[N][M]`. -/
def Matrix.WF {N M : Nat} (a : Matrix V N M) : Prop :=
  0 < N ∧ 0 < M ∧ Shaped a.values N M

/-- A well-formed square matrix of side `n`. -/
def DynMatrix.Square (n : Nat) (a : DynMatrix V) : Prop :=
  a.WF ∧ a.n = n ∧ a.m = n

/-- Group laws of the specification: `plus` associative, `zero` a two-sided identity,
`plus(x, neg(x)) = zero()`. -/
structure IsGroup (T : GroupOps V) : Prop where
  plus_assoc : ∀ a b c, T.plus (T.plus a b) c = T.plus a (T.plus b c)
  zero_plus : ∀ a, T.plus T.zero a = a
  plus_zero : ∀ a, T.plus a T.zero = a
  plus_neg : ∀ a, T.plus a (T.neg a) = T.zero

/-- Semiring laws of the specification: `plus` associative with identity `zero`, `mul`
associative with identity `one`, `mul` distributes over `plus` on both sides, `zero`
absorbs under `mul`. -/
structure IsSemiring (T : SemiringOps V) : Prop where
  plus_assoc : ∀ a b c, T.plus (T.plus a b) c = T.plus a (T.plus b c)
  zero_plus : ∀ a, T.plus T.zero a = a
  plus_zero : ∀ a, T.plus a T.zero = a
  mul_assoc : ∀ a b c, T.mul (T.mul a b) c = T.mul a (T.mul b c)
  one_mul : ∀ a, T.mul T.one a = a
  mul_one : ∀ a, T.mul a T.one = a
  left_distrib : ∀ a b c, T.mul a (T.plus b c) = T.plus (T.mul a b) (T.mul a c)
  right_distrib : ∀ a b c, T.mul (T.plus a b) c = T.plus (T.mul a c) (T.mul b c)
  zero_mul : ∀ a, T.mul T.zero a = T.zero
  mul_zero : ∀ a, T.mul a T.zero = T.zero

/-- The integers under `(+, ·)` as a `Semiring` element structure. -/
def intSemiring : SemiringOps Int :=
  { zero := 0, plus := fun a b => a + b, one := 1, mul := fun a b => a * b }

/-- The integers under `+` with negation as a `Group` element structure. -/
def intGroup : GroupOps Int :=
  { zero := 0, plus := fun a b => a + b, neg := fun a => -a }

end math

/-! ## Auxiliary facts: bit operations on indices -/

theorem shiftLeft_one_eq (i : Nat) : i <<< 1 = 2 * i := by
  rw [Nat.shiftLeft_eq]; omega

theorem shiftLeft_one_or_one_eq (i : Nat) : (i <<< 1) ||| 1 = 2 * i + 1 := by
  rw [shiftLeft_one_eq]
  have h := Nat.mul_add_lt_is_or (i := 1) (b := 1) (by decide) i
  simpa using h.symm

theorem shiftRight_one_eq (i : Nat) : i >>> 1 = i / 2 := by
  rw [Nat.shiftRight_eq_div_pow, Nat.pow_one]

/-! ## Auxiliary facts: the reference fold -/

section Fold

variable {T : Type} {op : T → T → T} {e : T}

theorem foldl_from (hm : IsMonoid op e) (a : T) (ys : List T) :
    ys.foldl op a = op a (ys.foldl op e) := by
  induction ys generalizing a with
  | nil => simp [hm.id_right]
  | cons y ys ih =>
    simp only [List.foldl_cons]
    rw [ih (op a y), ih (op e y), hm.id_left, hm.assoc]

theorem foldRange_self (v : List T) (l : Nat) : foldRange op e v l l = e := by
  simp [foldRange]

theorem foldRange_single (hm : IsMonoid op e) (v : List T) (i : Nat) (hi : i < v.length) :
    foldRange op e v i (i + 1) = v.getD i e := by
  unfold foldRange
  have h1 : i + 1 - i = 1 := by omega
  rw [List.drop_eq_getElem_cons hi, h1, List.take_succ_cons, List.take_zero,
    List.foldl_cons, List.foldl_nil, hm.id_left, List.getD_eq_getElem?_getD,
    List.getElem?_eq_getElem hi, Option.getD_some]

theorem foldRange_split (hm : IsMonoid op e) (v : List T) (a b c : Nat) (hab : a ≤ b)
    (hbc : b ≤ c) :
    foldRange op e v a c = op (foldRange op e v a b) (foldRange op e v b c) := by
  unfold foldRange
  have h1 : c - a = (b - a) + (c - b) := by omega
  have h2 : List.drop (b - a) (List.drop a v) = List.drop b v := by
    rw [List.drop_drop]; congr 1; omega
  rw [h1, List.take_add, List.foldl_append, h2, foldl_from hm]

end Fold

/-! ## Auxiliary facts: reads after writes -/

section ReadWrite

variable {T : Type}

theorem getD_set_same (t : List T) (k : Nat) (a d : T) (h : k < t.length) :
    (t.set k a).getD k d = a := by
  simp [List.getD_eq_getElem?_getD, List.getElem?_set, h]

theorem getD_set_other (t : List T) (k x : Nat) (a d : T) (h : k ≠ x) :
    (t.set k a).getD x d = t.getD x d := by
  simp [List.getD_eq_getElem?_getD, List.getElem?_set, h]

theorem getD_of_lt (t : List T) (x : Nat) (d : T) (h : x < t.length) :
    t.getD x d = t[x] := by
  simp [List.getD_eq_getElem?_getD, List.getElem?_eq_getElem h]

end ReadWrite

/-! ## Segment tree: what `build` establishes -/

namespace SegmentTree

variable {T : Type} {op : T → T → T} {e : T}

theorem copyAt_length (v : List T) (k : Nat) (t : List T) :
    (copyAt v k t).length = t.length := by
  induction v generalizing k t with
  | nil => rfl
  | cons x xs ih => simp [copyAt, ih]

theorem copyAt_getD (v : List T) (k : Nat) (t : List T) (d : T) (x : Nat)
    (hk : k + v.length ≤ t.length) :
    (copyAt v k t).getD x d =
      if k ≤ x ∧ x < k + v.length then v.getD (x - k) d else t.getD x d := by
  induction v generalizing k t with
  | nil =>
    have h0 : ¬ (k ≤ x ∧ x < k + ([] : List T).length) := by
      simp only [List.length_nil]; omega
    rw [if_neg h0]; rfl
  | cons y ys ih =>
    have hlen : k + 1 + ys.length ≤ (t.set k y).length := by
      simp only [List.length_set, List.length_cons] at *; omega
    simp only [copyAt]
    rw [ih (k + 1) (t.set k y) hlen]
    by_cases hx : x = k
    · subst hx
      have h1 : ¬ (x + 1 ≤ x ∧ x < x + 1 + ys.length) := by omega
      have h2 : x ≤ x ∧ x < x + (y :: ys).length := by
        simp only [List.length_cons]; omega
      rw [if_neg h1, if_pos h2, getD_set_same t x y d (by simp only [List.length_cons] at hk; omega)]
      simp
    · rw [getD_set_other t k x y d (fun h => hx h.symm)]
      by_cases hin : k + 1 ≤ x ∧ x < k + 1 + ys.length
      · have h2 : k ≤ x ∧ x < k + (y :: ys).length := by
          simp only [List.length_cons]; omega
        rw [if_pos hin, if_pos h2]
        have h3 : x - k = (x - (k + 1)) + 1 := by omega
        rw [h3, List.getD_cons_succ]
      · have h2 : ¬ (k ≤ x ∧ x < k + (y :: ys).length) := by
          simp only [List.length_cons]; omega
        rw [if_neg hin, if_neg h2]

theorem buildLoop_length (i : Nat) (t : List T) :
    (buildLoop op e i t).length = t.length := by
  induction i generalizing t with
  | zero => rfl
  | succ i ih => simp [buildLoop, ih]

theorem buildLoop_above (i : Nat) (t : List T) (x : Nat) (hx : i < x) :
    (buildLoop op e i t).getD x e = t.getD x e := by
  induction i generalizing t with
  | zero => rfl
  | succ i ih =>
    simp only [buildLoop]
    rw [ih _ (by omega), getD_set_other _ _ _ _ _ (by omega)]

theorem buildLoop_node (i : Nat) (t : List T) (hi : i < t.length) (x : Nat) (h1 : 1 ≤ x)
    (hx : x ≤ i) :
    (buildLoop op e i t).getD x e =
      op ((buildLoop op e i t).getD (2 * x) e) ((buildLoop op e i t).getD (2 * x + 1) e) := by
  induction i generalizing t with
  | zero => omega
  | succ i ih =>
    simp only [buildLoop]
    by_cases hxi : x ≤ i
    · exact ih _ (by simp only [List.length_set]; omega) hxi
    · have hxe : x = i + 1 := by omega
      subst hxe
      rw [buildLoop_above _ _ _ (by omega), buildLoop_above _ _ _ (by omega),
        buildLoop_above _ _ _ (by omega), getD_set_same _ _ _ _ hi,
        getD_set_other _ _ _ _ _ (by omega), getD_set_other _ _ _ _ _ (by omega),
        shiftLeft_one_or_one_eq, shiftLeft_one_eq]

theorem build_n (v : List T) : (build op e v).n = v.length := rfl

theorem build_length (v : List T) : (build op e v).t.length = 2 * v.length := by
  simp [build, buildLoop_length, copyAt_length]

theorem build_leaf (v : List T) (k : Nat) (hk : k < v.length) :
    (build op e v).t.getD (k + v.length) e = v.getD k e := by
  simp only [build]
  rw [buildLoop_above _ _ _ (by omega), copyAt_getD _ _ _ _ _ (by simp; omega),
    if_pos (by omega)]
  congr 1; omega

theorem build_node (v : List T) (i : Nat) (h1 : 1 ≤ i) (hi : i < v.length) :
    (build op e v).t.getD i e =
      op ((build op e v).t.getD (2 * i) e) ((build op e v).t.getD (2 * i + 1) e) := by
  simp only [build]
  exact buildLoop_node _ _ (by simp [copyAt_length]; omega) i h1 (by omega)

end SegmentTree

/-! ## Segment tree: the query loop on a tree that satisfies the node identity -/

theorem half_mul_pow_succ (x h : Nat) (hx : x % 2 = 0) :
    (x / 2) * 2 ^ (h + 1) = x * 2 ^ h := by
  obtain ⟨k, rfl⟩ : ∃ k, x = 2 * k := ⟨x / 2, by omega⟩
  rw [Nat.mul_div_cancel_left k (by decide : 0 < 2), pow_succ]
  ring

namespace SegmentTree

variable {T : Type} {op : T → T → T} {e : T}

/-- A node `i` whose `2 ^ h` descendants `h` levels down all lie inside the storage holds
the ordered fold of those descendants. -/
theorem node_covers (hm : IsMonoid op e) (t : List T) (n : Nat) (hlen : t.length = 2 * n)
    (hinv : NodeInv op e t n) (h i : Nat) (h1 : 1 ≤ i) (hi : (i + 1) * 2 ^ h ≤ 2 * n) :
    t.getD i e = foldRange op e t (i * 2 ^ h) ((i + 1) * 2 ^ h) := by
  induction h generalizing i with
  | zero =>
    simp only [pow_zero, Nat.mul_one] at hi ⊢
    exact (foldRange_single hm t i (by omega)).symm
  | succ h ih =>
    have hpos : 1 ≤ 2 ^ h := Nat.one_le_two_pow
    have hlt : i < n := by
      have h2 : (i + 1) * 2 ≤ (i + 1) * 2 ^ (h + 1) := by
        apply Nat.mul_le_mul_left
        rw [pow_succ]; omega
      omega
    have e1 : i * 2 ^ (h + 1) = (2 * i) * 2 ^ h := by rw [pow_succ]; ring
    have e2 : (i + 1) * 2 ^ (h + 1) = (2 * i + 1 + 1) * 2 ^ h := by rw [pow_succ]; ring
    have hmid : (2 * i + 1) * 2 ^ h ≤ (2 * i + 1 + 1) * 2 ^ h :=
      Nat.mul_le_mul_right _ (by omega)
    have hlow : (2 * i) * 2 ^ h ≤ (2 * i + 1) * 2 ^ h :=
      Nat.mul_le_mul_right _ (by omega)
    rw [hinv i h1 hlt, ih (2 * i) (by omega) (by omega),
      ih (2 * i + 1) (by omega) (by omega), e1, e2]
    exact (foldRange_split hm t _ _ _ hlow hmid).symm

/-- Loop invariant of `query`: at level `h` the left accumulator holds the fold of
`t[L, l * 2^h)`, the right one the fold of `t[r * 2^h, R)`; the loop ends within `fuel`
steps and the two accumulators compose to the fold of `t[L, R)`. -/
theorem queryLoop_fold (hm : IsMonoid op e) (t : List T) (n : Nat) (hlen : t.length = 2 * n)
    (hinv : NodeInv op e t n) (L R : Nat) (hL : 1 ≤ L) (hR : R ≤ 2 * n) :
    ∀ (fuel h l r : Nat) (accl accr : T), r < fuel → l ≤ r → L ≤ l * 2 ^ h →
      r * 2 ^ h ≤ R → accl = foldRange op e t L (l * 2 ^ h) →
      accr = foldRange op e t (r * 2 ^ h) R →
      ∃ a b, queryLoop op e t fuel l r accl accr = some (a, b) ∧
        op a b = foldRange op e t L R := by
  intro fuel
  induction fuel with
  | zero => intro h l r accl accr hf; omega
  | succ fuel ih =>
    intro h l r accl accr hf hlr hLl hrR hal har
    have hpos : 1 ≤ 2 ^ h := Nat.one_le_two_pow
    have hmono : l * 2 ^ h ≤ r * 2 ^ h := Nat.mul_le_mul_right _ hlr
    by_cases hlt : l < r
    · have hl1 : 1 ≤ l := by
        rcases Nat.eq_zero_or_pos l with h0 | h0
        · subst h0; omega
        · exact h0
      simp only [queryLoop, if_pos hlt, Nat.and_one_is_mod, shiftRight_one_eq]
      have hl_next : (l + 1) * 2 ^ h ≤ r * 2 ^ h := Nat.mul_le_mul_right _ hlt
      have hr_prev : l * 2 ^ h ≤ (r - 1) * 2 ^ h := Nat.mul_le_mul_right _ (by omega)
      have hr_mono : (r - 1) * 2 ^ h ≤ r * 2 ^ h := Nat.mul_le_mul_right _ (by omega)
      have hl_mono : l * 2 ^ h ≤ (l + 1) * 2 ^ h := Nat.mul_le_mul_right _ (by omega)
      apply ih (h + 1)
      · split <;> omega
      · split <;> split <;> omega
      · split
        · rw [half_mul_pow_succ _ _ (by omega)]; omega
        · rw [half_mul_pow_succ _ _ (by omega)]; omega
      · split
        · rw [half_mul_pow_succ _ _ (by omega)]; omega
        · rw [half_mul_pow_succ _ _ (by omega)]; omega
      · split
        · rw [half_mul_pow_succ _ _ (by omega), hal,
            node_covers hm t n hlen hinv h l hl1 (by omega)]
          exact (foldRange_split hm t _ _ _ hLl hl_mono).symm
        · rw [half_mul_pow_succ _ _ (by omega)]; exact hal
      · split
        · have hr1 : r - 1 + 1 = r := by omega
          have hc := node_covers hm t n hlen hinv h (r - 1) (by omega) (by rw [hr1]; omega)
          rw [hr1] at hc
          rw [half_mul_pow_succ _ _ (by omega), har, hc]
          exact (foldRange_split hm t _ _ _ hr_mono hrR).symm
        · rw [half_mul_pow_succ _ _ (by omega)]; exact har
    · have heq : l = r := by omega
      subst heq
      refine ⟨accl, accr, by simp [queryLoop], ?_⟩
      rw [hal, har]
      exact (foldRange_split hm t _ _ _ hLl hrR).symm

/-- On any storage of length `2n` satisfying the node identity, `query(l, r)` returns the
ordered fold of the leaf cells `t[l + n, r + n)`. -/
theorem query_of_nodeInv (hm : IsMonoid op e) (s : SegmentTree T)
    (hlen : s.t.length = 2 * s.n) (hinv : NodeInv op e s.t s.n) (l r : Nat) (hlr : l ≤ r)
    (hrn : r ≤ s.n) :
    query op e s l r = some (foldRange op e s.t (l + s.n) (r + s.n)) := by
  unfold query
  by_cases hlt : l < r
  · obtain ⟨a, b, hq, hab⟩ :=
      queryLoop_fold hm s.t s.n hlen hinv (l + s.n) (r + s.n) (by omega) (by omega)
        (r + s.n + 1) 0 (l + s.n) (r + s.n) e e (by omega) (by omega) (by simp) (by simp)
        (by simp [foldRange_self]) (by simp [foldRange_self])
    rw [hq, Option.map_some', hab]
  · have heq : l = r := by omega
    subst heq
    have hq : queryLoop op e s.t (l + s.n + 1) (l + s.n) (l + s.n) e e = some (e, e) := by
      simp [queryLoop]
    rw [hq, Option.map_some', foldRange_self, hm.id_left]

theorem build_drop (v : List T) : (build op e v).t.drop v.length = v := by
  apply List.ext_getElem
  · rw [List.length_drop, build_length]; omega
  · intro k h1 h2
    have h3 := @build_leaf T op e v k h2
    rw [getD_of_lt _ _ _ (by rw [build_length]; omega), getD_of_lt _ _ _ h2] at h3
    rw [List.getElem_drop]
    have h4 : v.length + k = k + v.length := by omega
    simp only [h4]
    exact h3

theorem build_nodeInv (v : List T) : NodeInv op e (build op e v).t (build op e v).n :=
  fun i h1 hi => build_node v i h1 hi

theorem foldRange_build (v : List T) (l r : Nat) :
    foldRange op e (build op e v).t (l + v.length) (r + v.length) = foldRange op e v l r := by
  unfold foldRange
  have h2 : r + v.length - (l + v.length) = r - l := by omega
  have h3 : List.drop (l + v.length) (build op e v).t =
      List.drop l (List.drop v.length (build op e v).t) := by
    rw [List.drop_drop, Nat.add_comm]
  rw [h2, h3, build_drop]

end SegmentTree

/-! ## Matrices: cells of a rectangular array -/

namespace math

section Cells

variable {V : Type}

theorem shaped_replicate (n m : Nat) (z : V) :
    Shaped (List.replicate n (List.replicate m z)) n m := by
  refine ⟨by simp, ?_⟩
  intro row hrow
  rw [(List.mem_replicate.mp hrow).2, List.length_replicate]

theorem shaped_row_length {vals : List (List V)} {n m : Nat} (hs : Shaped vals n m) (i : Nat)
    (hi : i < n) : (vals.getD i []).length = m := by
  have hlt : i < vals.length := by rw [hs.1]; exact hi
  rw [getD_of_lt _ _ _ hlt]
  exact hs.2 _ (List.getElem_mem hlt)

theorem writeCell_shaped {vals : List (List V)} {n m : Nat} (hs : Shaped vals n m)
    (i j : Nat) (x : V) : Shaped (writeCell vals i j x) n m := by
  unfold writeCell
  by_cases hi : i < vals.length
  · refine ⟨by rw [List.length_set]; exact hs.1, ?_⟩
    intro row hrow
    rcases List.mem_or_eq_of_mem_set hrow with h | h
    · exact hs.2 row h
    · rw [h, List.length_set]
      exact shaped_row_length hs i (by rw [← hs.1]; exact hi)
  · rw [List.set_eq_of_length_le (by omega)]
    exact hs

theorem readCell_writeCell_same {vals : List (List V)} {n m : Nat} (hs : Shaped vals n m)
    (d : V) (i j : Nat) (x : V) (hi : i < n) (hj : j < m) :
    readCell d (writeCell vals i j x) i j = x := by
  unfold readCell writeCell
  rw [getD_set_same _ _ _ _ (by rw [hs.1]; exact hi),
    getD_set_same _ _ _ _ (by rw [shaped_row_length hs i hi]; exact hj)]

theorem readCell_writeCell_other (vals : List (List V)) (d : V) (i j a b : Nat) (x : V)
    (hne : i ≠ a ∨ j ≠ b) :
    readCell d (writeCell vals i j x) a b = readCell d vals a b := by
  unfold readCell writeCell
  by_cases hia : i = a
  · subst hia
    have hjb : j ≠ b := by
      rcases hne with h | h
      · exact absurd rfl h
      · exact h
    by_cases hi : i < vals.length
    · rw [getD_set_same _ _ _ _ hi, getD_set_other _ _ _ _ _ hjb]
    · rw [List.set_eq_of_length_le (by omega)]
  · rw [getD_set_other _ _ _ _ _ hia]

theorem writeCell_writeCell (vals : List (List V)) (i j : Nat) (x y : V) :
    writeCell (writeCell vals i j x) i j y = writeCell vals i j y := by
  unfold writeCell
  by_cases hi : i < vals.length
  · rw [getD_set_same _ _ _ _ hi, List.set_set, List.set_set]
  · have e1 : ∀ r : List V, vals.set i r = vals :=
      fun r => List.set_eq_of_length_le (by omega)
    rw [e1 ((vals.getD i []).set j x)]

theorem readCell_replicate (d z : V) (n m i j : Nat) (hi : i < n) (hj : j < m) :
    readCell d (List.replicate n (List.replicate m z)) i j = z := by
  simp [readCell, List.getD_eq_getElem?_getD, hi, hj]

theorem shaped_ext {a b : List (List V)} {n m : Nat} (d : V) (ha : Shaped a n m)
    (hb : Shaped b n m)
    (h : ∀ i j, i < n → j < m → readCell d a i j = readCell d b i j) : a = b := by
  apply List.ext_getElem
  · rw [ha.1, hb.1]
  · intro i h1 h2
    have hin : i < n := by rw [← ha.1]; exact h1
    have hra : a[i].length = m := ha.2 _ (List.getElem_mem h1)
    have hrb : b[i].length = m := hb.2 _ (List.getElem_mem h2)
    apply List.ext_getElem
    · rw [hra, hrb]
    · intro j h3 h4
      have hc := h i j hin (by rw [← hra]; exact h3)
      unfold readCell at hc
      rw [getD_of_lt _ _ _ h1, getD_of_lt _ _ _ h2, getD_of_lt _ _ _ h3,
        getD_of_lt _ _ _ h4] at hc
      exact hc

end Cells

/-! ## Matrices: the loop nests -/

section Loops

variable {V : Type}

theorem foldl_shaped {α : Type} (f : List (List V) → α → List (List V)) (n m : Nat)
    (hf : ∀ vals a, Shaped vals n m → Shaped (f vals a) n m) (l : List α)
    (vals : List (List V)) (hs : Shaped vals n m) : Shaped (l.foldl f vals) n m := by
  induction l generalizing vals with
  | nil => exact hs
  | cons a l ih => exact ih _ (hf vals a hs)

theorem colLoop_shaped {vals : List (List V)} {n m : Nat} (hs : Shaped vals n m) (i : Nat)
    (f : Nat → V) (js : List Nat) :
    Shaped (js.foldl (fun vals j => writeCell vals i j (f j)) vals) n m :=
  foldl_shaped _ n m (fun _ j h => writeCell_shaped h i j (f j)) js vals hs

theorem readCell_colLoop (d : V) {n m : Nat} (i : Nat) (hi : i < n) (f : Nat → V)
    (js : List Nat) (hjs : ∀ j ∈ js, j < m) (a b : Nat) (vals : List (List V))
    (hs : Shaped vals n m) :
    readCell d (js.foldl (fun vals j => writeCell vals i j (f j)) vals) a b =
      if a = i ∧ b ∈ js then f b else readCell d vals a b := by
  induction js generalizing vals with
  | nil => simp
  | cons j0 js ih =>
    rw [List.foldl_cons, ih (fun j hj => hjs j (List.mem_cons_of_mem _ hj)) _
      (writeCell_shaped hs i j0 (f j0))]
    by_cases h1 : a = i ∧ b ∈ js
    · rw [if_pos h1, if_pos ⟨h1.1, List.mem_cons_of_mem _ h1.2⟩]
    · rw [if_neg h1]
      by_cases h2 : a = i ∧ b = j0
      · obtain ⟨rfl, rfl⟩ := h2
        rw [readCell_writeCell_same hs d a b (f b) hi (hjs b (List.mem_cons_self _ _)),
          if_pos ⟨rfl, List.mem_cons_self _ _⟩]
      · have h3 : ¬ (a = i ∧ b ∈ j0 :: js) := by
          rintro ⟨ha, hb⟩
          rcases List.mem_cons.mp hb with h | h
          · exact h2 ⟨ha, h⟩
          · exact h1 ⟨ha, h⟩
        rw [if_neg h3, readCell_writeCell_other]
        by_cases ha : i = a
        · right; intro hb; exact h2 ⟨ha.symm, hb.symm⟩
        · left; exact ha

theorem fill_shaped {vals : List (List V)} {n m : Nat} (hs : Shaped vals n m)
    (f : Nat → Nat → V) (is : List Nat) (c : Nat) :
    Shaped (is.foldl (fun vals i =>
      (List.range c).foldl (fun vals j => writeCell vals i j (f i j)) vals) vals) n m :=
  foldl_shaped _ n m (fun _ i h => colLoop_shaped h i (f i) (List.range c)) is vals hs

theorem readCell_fill (d : V) {n m : Nat} (f : Nat → Nat → V) (is : List Nat)
    (his : ∀ i ∈ is, i < n) (a b : Nat) (vals : List (List V)) (hs : Shaped vals n m) :
    readCell d (is.foldl (fun vals i =>
      (List.range m).foldl (fun vals j => writeCell vals i j (f i j)) vals) vals) a b =
      if a ∈ is ∧ b < m then f a b else readCell d vals a b := by
  induction is generalizing vals with
  | nil => simp
  | cons i0 is ih =>
    rw [List.foldl_cons, ih (fun i hi => his i (List.mem_cons_of_mem _ hi)) _
      (colLoop_shaped hs i0 (f i0) (List.range m)),
      readCell_colLoop d i0 (his i0 (List.mem_cons_self _ _)) (f i0) (List.range m)
        (fun j hj => List.mem_range.mp hj) a b vals hs]
    by_cases h1 : a ∈ is ∧ b < m
    · rw [if_pos h1, if_pos ⟨List.mem_cons_of_mem _ h1.1, h1.2⟩]
    · rw [if_neg h1]
      by_cases h2 : a = i0 ∧ b ∈ List.range m
      · rw [if_pos h2, if_pos ⟨by rw [h2.1]; exact List.mem_cons_self _ _,
          List.mem_range.mp h2.2⟩, h2.1]
      · have h3 : ¬ (a ∈ i0 :: is ∧ b < m) := by
          rintro ⟨ha, hb⟩
          rcases List.mem_cons.mp ha with h | h
          · exact h2 ⟨h, List.mem_range.mpr hb⟩
          · exact h1 ⟨h, hb⟩
        rw [if_neg h2, if_neg h3]

/-- The two-level loop nest `for i < n, for j < m: values[i][j] = f i j` on an `n × m` array
yields the array whose cell `(i, j)` is `f i j`. -/
theorem readCell_fill_range (d : V) {n m : Nat} (f : Nat → Nat → V) (vals : List (List V))
    (hs : Shaped vals n m) (a b : Nat) (ha : a < n) (hb : b < m) :
    readCell d ((List.range n).foldl (fun vals i =>
      (List.range m).foldl (fun vals j => writeCell vals i j (f i j)) vals) vals) a b =
      f a b := by
  rw [readCell_fill d f (List.range n) (fun i hi => List.mem_range.mp hi) a b vals hs,
    if_pos ⟨List.mem_range.mpr ha, hb⟩]

/-- The innermost loop of `operator*` assigns the same cell `m` times: only the last
assignment survives. -/
theorem kLoop_eq (vals : List (List V)) (i j : Nat) (g : Nat → V) (m : Nat) (hm : 0 < m) :
    (List.range m).foldl (fun vals k => writeCell vals i j (g k)) vals =
      writeCell vals i j (g (m - 1)) := by
  induction m with
  | zero => omega
  | succ m ih =>
    rw [List.range_succ, List.foldl_append, List.foldl_cons, List.foldl_nil]
    rcases Nat.eq_zero_or_pos m with h0 | h0
    · subst h0; rfl
    · rw [ih h0, writeCell_writeCell]; rfl

end Loops

/-! ## Matrices: what the operators compute -/

section Operators

variable {V : Type}

theorem DynMatrix.dyn_ext_cells (d : V) (a b : DynMatrix V) (ha : a.WF) (hb : b.WF)
    (hn : a.n = b.n) (hm : a.m = b.m)
    (h : ∀ i j, i < a.n → j < a.m → readCell d a.values i j = readCell d b.values i j) :
    a = b := by
  obtain ⟨va, na, ma, sa⟩ := a
  obtain ⟨vb, nb, mb, sb⟩ := b
  obtain ⟨_, _, hsa, hqa⟩ := ha
  obtain ⟨_, _, hsb, hqb⟩ := hb
  simp only at hn hm h hsa hsb hqa hqb
  subst hn hm
  have hv : va = vb := shaped_ext d hsa hsb h
  subst hv
  rw [hqa, hqb]

theorem DynMatrix.new_WF (T : MonoidOps V) (N M : Nat) (hN : 0 < N) (hM : 0 < M) :
    ∃ c, DynMatrix.new T N M = some c ∧ c.WF ∧ c.n = N ∧ c.m = M ∧
      c.values = List.replicate N (List.replicate M T.zero) := by
  refine ⟨_, by rw [DynMatrix.new, if_pos ⟨hN, hM⟩], ?_, rfl, rfl, rfl⟩
  exact ⟨hN, hM, shaped_replicate N M T.zero, rfl⟩

/-- The code of `DynMatrix::operator*`: on compatible operands it returns an
`a.n × other.m` matrix whose cell `(i, j)` is the single product
`mul(a[i, m-1], other[m-1, j])`. -/
theorem DynMatrix.dyn_mul_spec (T : SemiringOps V) (a b : DynMatrix V) (ha : a.WF) (hb : b.WF)
    (hab : a.m = b.n) :
    ∃ c, DynMatrix.mul T a b = some c ∧ c.WF ∧ c.n = a.n ∧ c.m = b.m ∧
      ∀ i j, i < a.n → j < b.m →
        readCell T.zero c.values i j =
          T.mul (readCell T.zero a.values i (a.m - 1))
            (readCell T.zero b.values (a.m - 1) j) := by
  obtain ⟨han, ham, _, _⟩ := ha
  obtain ⟨_, hbm, _, _⟩ := hb
  have hs0 := shaped_replicate a.n b.m T.zero
  refine ⟨{ values := (List.range a.n).foldl (fun vals i =>
              (List.range b.m).foldl (fun vals j =>
                writeCell vals i j
                  (T.mul (readCell T.zero a.values i (a.m - 1))
                    (readCell T.zero b.values (a.m - 1) j))) vals)
              (List.replicate a.n (List.replicate b.m T.zero)),
            n := a.n, m := b.m, isSquare := decide (a.n = b.m) }, ?_, ?_, rfl, rfl, ?_⟩
  · rw [DynMatrix.mul, if_pos hab, DynMatrix.new, if_pos ⟨han, hbm⟩, Option.map_some']
    simp only [kLoop_eq _ _ _ _ _ ham]
  · exact ⟨han, hbm, fill_shaped hs0 _ _ _, rfl⟩
  · intro i j hi hj
    exact readCell_fill_range T.zero _ _ hs0 i j hi hj

theorem Matrix.new_shaped (T : MonoidOps V) (N M : Nat) :
    Shaped (Matrix.new T N M).values N M :=
  fill_shaped (shaped_replicate N M T.zero) _ _ _

theorem Matrix.ext_cells {N M : Nat} (d : V) (a b : Matrix V N M) (ha : a.WF) (hb : b.WF)
    (h : ∀ i j, i < N → j < M → readCell d a.values i j = readCell d b.values i j) :
    a = b := by
  obtain ⟨va⟩ := a
  obtain ⟨vb⟩ := b
  have hv : va = vb := shaped_ext d ha.2.2 hb.2.2 h
  rw [hv]

/-- The code of `Matrix::operator*`: cell `(i, j)` of the result is the single product
`mul(a[i, M-1], other[M-1, j])`. -/
theorem Matrix.mul_spec {N M K : Nat} (T : SemiringOps V) (a : Matrix V N M)
    (b : Matrix V M K) (hN : 0 < N) (hM : 0 < M) (hK : 0 < K) :
    (Matrix.mul T a b).WF ∧
      ∀ i j, i < N → j < K →
        readCell T.zero (Matrix.mul T a b).values i j =
          T.mul (readCell T.zero a.values i (M - 1)) (readCell T.zero b.values (M - 1) j) := by
  have hs0 := Matrix.new_shaped T.toMonoidOps N K
  constructor
  · refine ⟨hN, hK, ?_⟩
    simp only [Matrix.mul, kLoop_eq _ _ _ _ _ hM]
    exact fill_shaped hs0 _ _ _
  · intro i j hi hj
    simp only [Matrix.mul, kLoop_eq _ _ _ _ _ hM]
    exact readCell_fill_range T.zero _ _ hs0 i j hi hj

theorem DynMatrix.dyn_add_spec (T : MonoidOps V) (a b : DynMatrix V) (ha : a.WF)
    (hn : a.n = b.n) (hm : a.m = b.m) :
    ∃ c, DynMatrix.add T a b = some c ∧ c.WF ∧ c.n = a.n ∧ c.m = a.m ∧
      ∀ i j, i < a.n → j < a.m →
        readCell T.zero c.values i j =
          T.plus (readCell T.zero a.values i j) (readCell T.zero b.values i j) := by
  obtain ⟨han, ham, _, _⟩ := ha
  have hs0 := shaped_replicate a.n a.m T.zero
  refine ⟨{ values := (List.range a.n).foldl (fun vals i =>
              (List.range a.m).foldl (fun vals j =>
                writeCell vals i j
                  (T.plus (readCell T.zero a.values i j) (readCell T.zero b.values i j)))
                vals) (List.replicate a.n (List.replicate a.m T.zero)),
            n := a.n, m := a.m, isSquare := decide (a.n = a.m) }, ?_, ?_, rfl, rfl, ?_⟩
  · rw [DynMatrix.add, if_pos ⟨hn, hm⟩, DynMatrix.new, if_pos ⟨han, ham⟩, Option.map_some']
  · exact ⟨han, ham, fill_shaped hs0 _ _ _, rfl⟩
  · intro i j hi hj
    exact readCell_fill_range T.zero _ _ hs0 i j hi hj

theorem DynMatrix.dyn_sub_spec (T : GroupOps V) (a b : DynMatrix V) (ha : a.WF)
    (hn : a.n = b.n) (hm : a.m = b.m) :
    ∃ c, DynMatrix.sub T a b = some c ∧ c.WF ∧ c.n = a.n ∧ c.m = a.m ∧
      ∀ i j, i < a.n → j < a.m →
        readCell T.zero c.values i j =
          T.plus (readCell T.zero a.values i j) (T.neg (readCell T.zero b.values i j)) := by
  obtain ⟨han, ham, _, _⟩ := ha
  have hs0 := shaped_replicate a.n a.m T.zero
  refine ⟨{ values := (List.range a.n).foldl (fun vals i =>
              (List.range a.m).foldl (fun vals j =>
                writeCell vals i j
                  (T.plus (readCell T.zero a.values i j)
                    (T.neg (readCell T.zero b.values i j))))
                vals) (List.replicate a.n (List.replicate a.m T.zero)),
            n := a.n, m := a.m, isSquare := decide (a.n = a.m) }, ?_, ?_, rfl, rfl, ?_⟩
  · rw [DynMatrix.sub, if_pos ⟨hn, hm⟩, DynMatrix.new, if_pos ⟨han, ham⟩, Option.map_some']
  · exact ⟨han, ham, fill_shaped hs0 _ _ _, rfl⟩
  · intro i j hi hj
    exact readCell_fill_range T.zero _ _ hs0 i j hi hj

theorem DynMatrix.dyn_neg_spec (T : GroupOps V) (a : DynMatrix V) (ha : a.WF) :
    ∃ c, DynMatrix.neg T a = some c ∧ c.WF ∧ c.n = a.n ∧ c.m = a.m ∧
      ∀ i j, i < a.n → j < a.m →
        readCell T.zero c.values i j = T.neg (readCell T.zero a.values i j) := by
  obtain ⟨han, ham, _, _⟩ := ha
  have hs0 := shaped_replicate a.n a.m T.zero
  refine ⟨{ values := (List.range a.n).foldl (fun vals i =>
              (List.range a.m).foldl (fun vals j =>
                writeCell vals i j (T.neg (readCell T.zero a.values i j)))
                vals) (List.replicate a.n (List.replicate a.m T.zero)),
            n := a.n, m := a.m, isSquare := decide (a.n = a.m) }, ?_, ?_, rfl, rfl, ?_⟩
  · rw [DynMatrix.neg, DynMatrix.new, if_pos ⟨han, ham⟩, Option.map_some']
  · exact ⟨han, ham, fill_shaped hs0 _ _ _, rfl⟩
  · intro i j hi hj
    exact readCell_fill_range T.zero _ _ hs0 i j hi hj

theorem Matrix.new_cell (T : MonoidOps V) (N M i j : Nat) (hi : i < N) (hj : j < M) :
    readCell T.zero (Matrix.new T N M).values i j = T.zero :=
  readCell_fill_range T.zero (fun _ _ => T.zero) _ (shaped_replicate N M T.zero) i j hi hj

theorem Matrix.add_spec {N M : Nat} (T : MonoidOps V) (a b : Matrix V N M) (hN : 0 < N)
    (hM : 0 < M) :
    (Matrix.add T a b).WF ∧
      ∀ i j, i < N → j < M →
        readCell T.zero (Matrix.add T a b).values i j =
          T.plus (readCell T.zero a.values i j) (readCell T.zero b.values i j) :=
  ⟨⟨hN, hM, fill_shaped (Matrix.new_shaped T N M) _ _ _⟩,
    fun i j hi hj => readCell_fill_range T.zero _ _ (Matrix.new_shaped T N M) i j hi hj⟩

theorem Matrix.sub_spec {N M : Nat} (T : GroupOps V) (a b : Matrix V N M) (hN : 0 < N)
    (hM : 0 < M) :
    (Matrix.sub T a b).WF ∧
      ∀ i j, i < N → j < M →
        readCell T.zero (Matrix.sub T a b).values i j =
          T.plus (readCell T.zero a.values i j) (T.neg (readCell T.zero b.values i j)) :=
  ⟨⟨hN, hM, fill_shaped (Matrix.new_shaped T.toMonoidOps N M) _ _ _⟩,
    fun i j hi hj =>
      readCell_fill_range T.zero _ _ (Matrix.new_shaped T.toMonoidOps N M) i j hi hj⟩

theorem Matrix.neg_spec {N M : Nat} (T : GroupOps V) (a : Matrix V N M) (hN : 0 < N)
    (hM : 0 < M) :
    (Matrix.neg T a).WF ∧
      ∀ i j, i < N → j < M →
        readCell T.zero (Matrix.neg T a).values i j = T.neg (readCell T.zero a.values i j) :=
  ⟨⟨hN, hM, fill_shaped (Matrix.new_shaped T.toMonoidOps N M) _ _ _⟩,
    fun i j hi hj =>
      readCell_fill_range T.zero _ _ (Matrix.new_shaped T.toMonoidOps N M) i j hi hj⟩

theorem intSemiring_isSemiring : IsSemiring intSemiring where
  plus_assoc := Int.add_assoc
  zero_plus := Int.zero_add
  plus_zero := Int.add_zero
  mul_assoc := Int.mul_assoc
  one_mul := Int.one_mul
  mul_one := Int.mul_one
  left_distrib := Int.mul_add
  right_distrib := Int.add_mul
  zero_mul := Int.zero_mul
  mul_zero := Int.mul_zero

theorem intGroup_isGroup : IsGroup intGroup where
  plus_assoc := Int.add_assoc
  zero_plus := Int.zero_add
  plus_zero := Int.add_zero
  plus_neg := Int.add_right_neg

end Operators

end math

/-! ## Claims -/

/-- C1. For every monoid `(op, e)` (associative, two-sided identity, commutativity not
assumed), every sequence `v` of any length `n` and every `0 ≤ l ≤ r ≤ n`, after `build(v)`
the call `query(l, r)` returns the left-to-right fold
`op(...op(op(e, v[l]), v[l+1])..., v[r-1])` (which is `e` when `l = r`). -/
theorem C1_query_after_build {T : Type} (op : T → T → T) (e : T) (hm : IsMonoid op e)
    (v : List T) (l r : Nat) (hlr : l ≤ r) (hrn : r ≤ v.length) :
    SegmentTree.query op e (SegmentTree.build op e v) l r =
      some (((v.drop l).take (r - l)).foldl op e) := by
  have h := SegmentTree.query_of_nodeInv hm (SegmentTree.build op e v)
    (SegmentTree.build_length v) (SegmentTree.build_nodeInv v) l r hlr hrn
  rw [h, SegmentTree.build_n, SegmentTree.foldRange_build]
  rfl

/-- Witness of C1 on a tree with three leaves (not a power of two) over the non-commutative
monoid of strings under concatenation: `query(1, 3)` after `build(["a","b","c"])`. -/
theorem C1_query_after_build_witness :
    SegmentTree.query String.append "" (SegmentTree.build String.append "" ["a", "b", "c"]) 1 3
      = some (((["a", "b", "c"].drop 1).take (3 - 1)).foldl String.append "") :=
  C1_query_after_build String.append ""
    ⟨String.append_assoc, String.empty_append, String.append_empty⟩ ["a", "b", "c"] 1 3
    (by decide) (by decide)

namespace math

/-- C2. The code of `operator*` (both `DynMatrix` and `Matrix`) does not accumulate: on the
2×3 matrix `[[1,2,3],[4,5,6]]` and the 3×2 matrix `[[7,8],[9,10],[11,12]]` over the integers
it returns `[[33,36],[66,72]]`, the products for `k = 2` alone, not `[[58,64],[139,154]]`. -/
theorem C2_mul_keeps_only_last_product :
    DynMatrix.mul intSemiring ⟨[[1, 2, 3], [4, 5, 6]], 2, 3, false⟩
        ⟨[[7, 8], [9, 10], [11, 12]], 3, 2, false⟩
      = some ⟨[[33, 36], [66, 72]], 2, 2, true⟩ ∧
    Matrix.mul intSemiring (⟨[[1, 2, 3], [4, 5, 6]]⟩ : Matrix Int 2 3)
        (⟨[[7, 8], [9, 10], [11, 12]]⟩ : Matrix Int 3 2)
      = ⟨[[33, 36], [66, 72]]⟩ := by
  decide

end math

/-- C3. The code of `update` breaks the internal-node identity on a non-commutative monoid:
over strings under concatenation, after `build(["a","b"])` and `update(1, "X")` the storage
is `["", "Xa", "a", "X"]`, so `t[1] = "Xa"` whereas `op(t[2], t[3]) = "aX"`. -/
theorem C3_update_breaks_node_identity :
    ∃ s, SegmentTree.update String.append ""
          (SegmentTree.build String.append "" ["a", "b"]) 1 "X" = some s ∧
      s.n = 2 ∧ s.t = ["", "Xa", "a", "X"] ∧
      s.t.getD 1 "" ≠ String.append (s.t.getD 2 "") (s.t.getD 3 "") :=
  ⟨_, rfl, rfl, rfl, by decide⟩

/-- C4. The code of `update` followed by `query` on strings under concatenation: after
`build(["a","b","c","d"])` and `update(1, "X")`, `query(0, 4)` returns `"Xacd"`, not
`"aXcd"`. -/
theorem C4_update_then_query_misorders :
    (SegmentTree.update String.append ""
        (SegmentTree.build String.append "" ["a", "b", "c", "d"]) 1 "X").bind
      (fun s => SegmentTree.query String.append "" s 0 4) = some "Xacd" := by
  decide

namespace math

/-- C5. The code of `pow` on `[[1,1],[1,0]]` over the integers with exponent 10 returns the
zero matrix, not `[[89,55],[55,34]]`. -/
theorem C5_pow_ten_of_fibonacci_matrix :
    DynMatrix.pow intSemiring ⟨[[1, 1], [1, 0]], 2, 2, true⟩ 10
      = some ⟨[[0, 0], [0, 0]], 2, 2, true⟩ := by
  decide

/-- C6. The code of `pow` with exponent 1 on `[[1,1],[1,0]]` over the integers returns
`[[0,0],[1,0]]`, which is not the matrix itself. -/
theorem C6_pow_one_is_not_the_matrix :
    DynMatrix.pow intSemiring ⟨[[1, 1], [1, 0]], 2, 2, true⟩ 1
      = some ⟨[[0, 0], [1, 0]], 2, 2, true⟩ := by
  decide

/-- C7. The code of `pow` and `operator*` at `a = b = 0` on `[[1,1],[1,0]]` over the
integers: `pow(0 + 0)` is `[[1,0],[0,1]]` while `pow(0) * pow(0)` is `[[0,0],[0,1]]`. -/
theorem C7_pow_add_fails_at_zero :
    DynMatrix.pow intSemiring ⟨[[1, 1], [1, 0]], 2, 2, true⟩ (0 + 0)
      = some ⟨[[1, 0], [0, 1]], 2, 2, true⟩ ∧
    ((DynMatrix.pow intSemiring ⟨[[1, 1], [1, 0]], 2, 2, true⟩ 0).bind fun x =>
      (DynMatrix.pow intSemiring ⟨[[1, 1], [1, 0]], 2, 2, true⟩ 0).bind fun y =>
        DynMatrix.mul intSemiring x y)
      = some ⟨[[0, 0], [0, 1]], 2, 2, true⟩ := by
  decide

/-- C8. The code of `operator*` with `identity(2)` on `A = [[1,2],[3,4]]` over the integers:
`A * identity(2)` is `[[0,2],[0,4]]` and `identity(2) * A` is `[[0,0],[3,4]]`; neither is
`A`. -/
theorem C8_identity_is_not_neutral :
    ((DynMatrix.identity intSemiring 2).bind fun i2 =>
        DynMatrix.mul intSemiring ⟨[[1, 2], [3, 4]], 2, 2, true⟩ i2)
      = some ⟨[[0, 2], [0, 4]], 2, 2, true⟩ ∧
    ((DynMatrix.identity intSemiring 2).bind fun i2 =>
        DynMatrix.mul intSemiring i2 ⟨[[1, 2], [3, 4]], 2, 2, true⟩)
      = some ⟨[[0, 0], [3, 4]], 2, 2, true⟩ := by
  decide

/-- C9. For every semiring `T` and all matrices `A` (n×m), `B` (m×k), `C` (k×q), the
library's `operator*` is associative: `(A * B) * C` and `A * (B * C)` both succeed and are
the same n×q matrix, for `DynMatrix` and for the static `Matrix`. -/
theorem C9_mul_assoc {V : Type} (T : SemiringOps V) (hT : IsSemiring T)
    (a b c : DynMatrix V) (ha : a.WF) (hb : b.WF) (hc : c.WF) (hab : a.m = b.n)
    (hbc : b.m = c.n) {N M K Q : Nat} (sa : Matrix V N M) (sb : Matrix V M K)
    (sc : Matrix V K Q) (hsa : sa.WF) (hsb : sb.WF) (hsc : sc.WF) :
    (∃ x, ((DynMatrix.mul T a b).bind fun ab => DynMatrix.mul T ab c) = some x ∧
        ((DynMatrix.mul T b c).bind fun bc => DynMatrix.mul T a bc) = some x ∧
        x.n = a.n ∧ x.m = c.m) ∧
      Matrix.mul T (Matrix.mul T sa sb) sc = Matrix.mul T sa (Matrix.mul T sb sc) := by
  constructor
  · obtain ⟨ab, e1, wf1, n1, m1, c1⟩ := DynMatrix.dyn_mul_spec T a b ha hb hab
    obtain ⟨abc, e2, wf2, n2, m2, c2⟩ := DynMatrix.dyn_mul_spec T ab c wf1 hc (by rw [m1]; exact hbc)
    obtain ⟨bc, e3, wf3, n3, m3, c3⟩ := DynMatrix.dyn_mul_spec T b c hb hc hbc
    obtain ⟨abc2, e4, wf4, n4, m4, c4⟩ :=
      DynMatrix.dyn_mul_spec T a bc ha wf3 (by rw [n3]; exact hab)
    have ham : 0 < a.m := ha.2.1
    have hbm : 0 < b.m := hb.2.1
    have heq : abc = abc2 := by
      apply DynMatrix.dyn_ext_cells T.zero abc abc2 wf2 wf4 (by rw [n2, n1, n4])
        (by rw [m2, m4, m3])
      intro i j hi hj
      rw [n2, n1] at hi
      rw [m2] at hj
      rw [c2 i j (by rw [n1]; exact hi) hj, c4 i j hi (by rw [m3]; exact hj), m1,
        c1 i (b.m - 1) hi (by omega), c3 (a.m - 1) j (by omega) hj, hT.mul_assoc]
    refine ⟨abc, ?_, ?_, by rw [n2, n1], m2⟩
    · rw [e1, Option.some_bind, e2]
    · rw [e3, Option.some_bind, e4, heq]
  · obtain ⟨hN, hM, _⟩ := hsa
    obtain ⟨_, hK, _⟩ := hsb
    obtain ⟨_, hQ, _⟩ := hsc
    obtain ⟨wf1, c1⟩ := Matrix.mul_spec T sa sb hN hM hK
    obtain ⟨wf2, c2⟩ := Matrix.mul_spec T (Matrix.mul T sa sb) sc hN hK hQ
    obtain ⟨wf3, c3⟩ := Matrix.mul_spec T sb sc hM hK hQ
    obtain ⟨wf4, c4⟩ := Matrix.mul_spec T sa (Matrix.mul T sb sc) hN hM hQ
    apply Matrix.ext_cells T.zero _ _ wf2 wf4
    intro i j hi hj
    rw [c2 i j hi hj, c4 i j hi hj, c1 i (K - 1) hi (by omega),
      c3 (M - 1) j (by omega) hj, hT.mul_assoc]

/-- Witness of C9 over the integers: `A` is 2×3, `B` is 3×2, `C` is 2×1, for both matrix
variants. -/
theorem C9_mul_assoc_witness :
    (∃ x, ((DynMatrix.mul intSemiring ⟨[[1, 2, 3], [4, 5, 6]], 2, 3, false⟩
              ⟨[[7, 8], [9, 10], [11, 12]], 3, 2, false⟩).bind
            fun ab => DynMatrix.mul intSemiring ab ⟨[[2], [5]], 2, 1, false⟩) = some x ∧
        ((DynMatrix.mul intSemiring ⟨[[7, 8], [9, 10], [11, 12]], 3, 2, false⟩
              ⟨[[2], [5]], 2, 1, false⟩).bind
            fun bc => DynMatrix.mul intSemiring ⟨[[1, 2, 3], [4, 5, 6]], 2, 3, false⟩ bc)
          = some x ∧
        x.n = 2 ∧ x.m = 1) ∧
      Matrix.mul intSemiring
          (Matrix.mul intSemiring (⟨[[1, 2, 3], [4, 5, 6]]⟩ : Matrix Int 2 3)
            (⟨[[7, 8], [9, 10], [11, 12]]⟩ : Matrix Int 3 2))
          (⟨[[2], [5]]⟩ : Matrix Int 2 1)
        = Matrix.mul intSemiring (⟨[[1, 2, 3], [4, 5, 6]]⟩ : Matrix Int 2 3)
            (Matrix.mul intSemiring (⟨[[7, 8], [9, 10], [11, 12]]⟩ : Matrix Int 3 2)
              (⟨[[2], [5]]⟩ : Matrix Int 2 1)) :=
  C9_mul_assoc intSemiring intSemiring_isSemiring
    ⟨[[1, 2, 3], [4, 5, 6]], 2, 3, false⟩ ⟨[[7, 8], [9, 10], [11, 12]], 3, 2, false⟩
    ⟨[[2], [5]], 2, 1, false⟩
    (by simp [DynMatrix.WF, Shaped]) (by simp [DynMatrix.WF, Shaped])
    (by simp [DynMatrix.WF, Shaped]) rfl rfl
    ⟨[[1, 2, 3], [4, 5, 6]]⟩ ⟨[[7, 8], [9, 10], [11, 12]]⟩ ⟨[[2], [5]]⟩
    (by simp [Matrix.WF, Shaped]) (by simp [Matrix.WF, Shaped]) (by simp [Matrix.WF, Shaped])

/-- C10. For every group `T` and every n×m matrix `A`, `A + (-A)` and `A - A` both equal the
freshly constructed n×m zero matrix, for `DynMatrix` and for the static `Matrix`. -/
theorem C10_group_round_trip {V : Type} (T : GroupOps V) (hT : IsGroup T)
    (a : DynMatrix V) (ha : a.WF) {N M : Nat} (sa : Matrix V N M) (hsa : sa.WF) :
    (∃ z, DynMatrix.new T.toMonoidOps a.n a.m = some z ∧
        ((DynMatrix.neg T a).bind fun na => DynMatrix.add T.toMonoidOps a na) = some z ∧
        DynMatrix.sub T a a = some z) ∧
      Matrix.add T.toMonoidOps sa (Matrix.neg T sa) = Matrix.new T.toMonoidOps N M ∧
      Matrix.sub T sa sa = Matrix.new T.toMonoidOps N M := by
  refine ⟨?_, ?_, ?_⟩
  · obtain ⟨z, ez, wfz, nz, mz, vz⟩ := DynMatrix.new_WF T.toMonoidOps a.n a.m ha.1 ha.2.1
    obtain ⟨na, e1, wf1, n1, m1, c1⟩ := DynMatrix.dyn_neg_spec T a ha
    obtain ⟨s, e2, wf2, n2, m2, c2⟩ :=
      DynMatrix.dyn_add_spec T.toMonoidOps a na ha n1.symm m1.symm
    obtain ⟨d, e3, wf3, n3, m3, c3⟩ := DynMatrix.dyn_sub_spec T a a ha rfl rfl
    have hzc : ∀ i j, i < a.n → j < a.m → readCell T.zero z.values i j = T.zero := by
      intro i j hi hj
      rw [vz]
      exact readCell_replicate _ _ _ _ i j hi hj
    have hs : s = z := by
      apply DynMatrix.dyn_ext_cells T.zero s z wf2 wfz (by rw [n2, nz]) (by rw [m2, mz])
      intro i j hi hj
      rw [n2] at hi
      rw [m2] at hj
      rw [c2 i j hi hj, c1 i j hi hj, hT.plus_neg, hzc i j hi hj]
    have hd : d = z := by
      apply DynMatrix.dyn_ext_cells T.zero d z wf3 wfz (by rw [n3, nz]) (by rw [m3, mz])
      intro i j hi hj
      rw [n3] at hi
      rw [m3] at hj
      rw [c3 i j hi hj, hT.plus_neg, hzc i j hi hj]
    exact ⟨z, ez, by rw [e1, Option.some_bind, e2, hs], by rw [e3, hd]⟩
  · obtain ⟨hN, hM, _⟩ := hsa
    obtain ⟨wf1, c1⟩ := Matrix.neg_spec T sa hN hM
    obtain ⟨wf2, c2⟩ := Matrix.add_spec T.toMonoidOps sa (Matrix.neg T sa) hN hM
    apply Matrix.ext_cells T.zero _ _ wf2 ⟨hN, hM, Matrix.new_shaped _ N M⟩
    intro i j hi hj
    rw [c2 i j hi hj, c1 i j hi hj, hT.plus_neg, Matrix.new_cell _ N M i j hi hj]
  · obtain ⟨hN, hM, _⟩ := hsa
    obtain ⟨wf3, c3⟩ := Matrix.sub_spec T sa sa hN hM
    apply Matrix.ext_cells T.zero _ _ wf3 ⟨hN, hM, Matrix.new_shaped _ N M⟩
    intro i j hi hj
    rw [c3 i j hi hj, hT.plus_neg, Matrix.new_cell _ N M i j hi hj]

/-- Witness of C10 over the integers on the 2×3 matrix `[[1,2,3],[4,5,6]]`, for both matrix
variants. -/
theorem C10_group_round_trip_witness :
    (∃ z, DynMatrix.new intGroup.toMonoidOps 2 3 = some z ∧
        ((DynMatrix.neg intGroup ⟨[[1, 2, 3], [4, 5, 6]], 2, 3, false⟩).bind fun na =>
          DynMatrix.add intGroup.toMonoidOps ⟨[[1, 2, 3], [4, 5, 6]], 2, 3, false⟩ na)
          = some z ∧
        DynMatrix.sub intGroup ⟨[[1, 2, 3], [4, 5, 6]], 2, 3, false⟩
          ⟨[[1, 2, 3], [4, 5, 6]], 2, 3, false⟩ = some z) ∧
      Matrix.add intGroup.toMonoidOps (⟨[[1, 2, 3], [4, 5, 6]]⟩ : Matrix Int 2 3)
          (Matrix.neg intGroup ⟨[[1, 2, 3], [4, 5, 6]]⟩)
        = Matrix.new intGroup.toMonoidOps 2 3 ∧
      Matrix.sub intGroup (⟨[[1, 2, 3], [4, 5, 6]]⟩ : Matrix Int 2 3)
          ⟨[[1, 2, 3], [4, 5, 6]]⟩
        = Matrix.new intGroup.toMonoidOps 2 3 :=
  C10_group_round_trip intGroup intGroup_isGroup ⟨[[1, 2, 3], [4, 5, 6]], 2, 3, false⟩
    (by simp [DynMatrix.WF, Shaped]) ⟨[[1, 2, 3], [4, 5, 6]]⟩ (by simp [Matrix.WF, Shaped])

end math

/-! ## Segment tree: the ancestor-repair loop of `update` and `add` -/

theorem xor_one_eq (p : Nat) : p ^^^ 1 = if p % 2 = 0 then p + 1 else p - 1 := by
  have h1 : (1 : Nat) = Nat.bit true 0 := rfl
  have h2 := Nat.xor_bit p.bodd p.div2 true 0
  rw [Nat.bit_decomp, ← h1, Nat.bit_val, Nat.xor_zero, Nat.div2_val] at h2
  have h3 := Nat.mod_two_of_bodd p
  rw [h2]
  cases hb : p.bodd
  · rw [hb] at h3
    have h4 : p % 2 = 0 := by simpa using h3
    rw [if_pos h4]
    simp
    omega
  · rw [hb] at h3
    have h4 : p % 2 = 1 := by simpa using h3
    rw [if_neg (by omega)]
    simp
    omega

theorem ancestor_half (p : Nat) : Ancestor p (p / 2) :=
  ⟨1, Nat.le_refl 1, by rw [pow_one]⟩

theorem ancestor_of_half (p x : Nat) (h : Ancestor (p / 2) x) : Ancestor p x := by
  obtain ⟨j, _, hj⟩ := h
  refine ⟨j + 1, by omega, ?_⟩
  rw [← hj, Nat.div_div_eq_div_mul, pow_succ, Nat.mul_comm]

theorem ancestor_cases (p x : Nat) (h : Ancestor p x) : x = p / 2 ∨ Ancestor (p / 2) x := by
  obtain ⟨j, h1, hj⟩ := h
  rcases Nat.lt_or_ge 1 j with h2 | h2
  · right
    refine ⟨j - 1, by omega, ?_⟩
    have hj1 : j = (j - 1) + 1 := by omega
    rw [← hj, Nat.div_div_eq_div_mul]
    conv_rhs => rw [hj1, pow_succ, Nat.mul_comm]
  · left
    have hj1 : j = 1 := by omega
    rw [← hj, hj1, pow_one]

theorem ancestor_le (p x : Nat) (h : Ancestor p x) : x ≤ p / 2 := by
  obtain ⟨j, h1, hj⟩ := h
  rw [← hj]
  apply Nat.div_le_div_left _ (by decide)
  calc 2 = 2 ^ 1 := by rw [pow_one]
    _ ≤ 2 ^ j := Nat.pow_le_pow_right (by decide) h1

theorem not_ancestor_of_shiftRight_ne (p x : Nat) (h : ∀ j, p >>> j ≠ x) : ¬ Ancestor p x := by
  rintro ⟨j, _, hj⟩
  exact h j (by rw [Nat.shiftRight_eq_div_pow]; exact hj)

namespace SegmentTree

variable {T : Type} {op : T → T → T} {e : T}

/-- The loop of `update`/`add` entered at `p` ends within `p` steps, keeps the length of the
storage and writes no cell other than proper ancestors of `p`. -/
theorem climb_frame (fuel p : Nat) (t : List T) (hf : p ≤ fuel) :
    ∃ t1, climb op e fuel p t = some t1 ∧ t1.length = t.length ∧
      ∀ x, ¬ Ancestor p x → t1.getD x e = t.getD x e := by
  induction fuel generalizing p t with
  | zero =>
    refine ⟨t, ?_, rfl, fun _ _ => rfl⟩
    have hp : ¬ p > 1 := by omega
    simp only [climb, if_neg hp]
  | succ fuel ih =>
    by_cases hp : p > 1
    · simp only [climb, if_pos hp, shiftRight_one_eq]
      obtain ⟨t1, h1, h2, h3⟩ :=
        ih (p / 2) (t.set (p / 2) (op (t.getD p e) (t.getD (p ^^^ 1) e))) (by omega)
      refine ⟨t1, h1, by rw [h2, List.length_set], ?_⟩
      intro x hx
      rw [h3 x (fun h => hx (ancestor_of_half p x h)),
        getD_set_other _ _ _ _ _ (fun h => hx (by rw [← h]; exact ancestor_half p))]
    · exact ⟨t, by simp only [climb, if_neg hp], rfl, fun _ _ => rfl⟩

theorem leaf_not_ancestor (n p q : Nat) (hp : p < n) : ¬ Ancestor (p + n) (q + n) := by
  intro h
  have := ancestor_le _ _ h
  omega

end SegmentTree

/-- C13. For every `op`, every tree with `n` leaves (storage of length `2n`), every
`0 ≤ p < n` and value `x`: `add(p, x)` returns, after it `get(p)` is `op(old, x)` with `old`
the former `get(p)` (the new value on the right), and `get(q)` is unchanged for every other
leaf `q < n`. -/
theorem C13_add_composes_on_the_right {T : Type} (op : T → T → T) (e : T)
    (s : SegmentTree T) (hlen : s.t.length = 2 * s.n) (p : Nat) (hp : p < s.n) (x : T) :
    ∃ s1, SegmentTree.add op e s p x = some s1 ∧ s1.n = s.n ∧
      SegmentTree.get e s1 p = op (SegmentTree.get e s p) x ∧
      ∀ q, q < s.n → q ≠ p → SegmentTree.get e s1 q = SegmentTree.get e s q := by
  obtain ⟨t1, h1, _, h3⟩ := @SegmentTree.climb_frame T op e (p + s.n) (p + s.n)
    (s.t.set (p + s.n) (op (s.t.getD (p + s.n) e) x)) (Nat.le_refl _)
  refine ⟨{ t := t1, n := s.n }, ?_, rfl, ?_, ?_⟩
  · simp only [SegmentTree.add]
    rw [h1, Option.map_some']
  · simp only [SegmentTree.get]
    rw [h3 _ (SegmentTree.leaf_not_ancestor s.n p p hp),
      getD_set_same _ _ _ _ (by omega)]
  · intro q _ hqp
    simp only [SegmentTree.get]
    rw [h3 _ (SegmentTree.leaf_not_ancestor s.n p q hp),
      getD_set_other _ _ _ _ _ (by omega)]

/-- Witness of C13: the range-sum tree built from `[3,1,4,1,5,9,2,6]`, `add(0, 10)`; the
leaf becomes `3 + 10 = 13`. -/
theorem C13_add_composes_on_the_right_witness :
    ∃ s1, SegmentTree.add (fun a b : Int => a + b) 0
        (SegmentTree.build (fun a b : Int => a + b) 0 [3, 1, 4, 1, 5, 9, 2, 6]) 0 10 = some s1 ∧
      s1.n = 8 ∧
      SegmentTree.get 0 s1 0 =
        SegmentTree.get 0
          (SegmentTree.build (fun a b : Int => a + b) 0 [3, 1, 4, 1, 5, 9, 2, 6]) 0 + 10 ∧
      ∀ q, q < 8 → q ≠ 0 →
        SegmentTree.get 0 s1 q =
          SegmentTree.get 0
            (SegmentTree.build (fun a b : Int => a + b) 0 [3, 1, 4, 1, 5, 9, 2, 6]) q :=
  C13_add_composes_on_the_right (fun a b : Int => a + b) 0
    (SegmentTree.build (fun a b : Int => a + b) 0 [3, 1, 4, 1, 5, 9, 2, 6])
    (by decide) 0 (by decide) 10

/-- C17. For every `op`, every tree with `n` leaves (storage of length `2n`), every
`0 ≤ p < n` and value `x`: `update(p, x)` returns; after it `get(p)` is `x`, `get(q)` is
unchanged for every other leaf `q < n`, `n` and the storage length `2n` are unchanged, and
every cell whose index is not `(n + p) >> j` for some `j ≥ 0` keeps its value. -/
theorem C17_update_is_point_assignment {T : Type} (op : T → T → T) (e : T)
    (s : SegmentTree T) (hlen : s.t.length = 2 * s.n) (p : Nat) (hp : p < s.n) (x : T) :
    ∃ s1, SegmentTree.update op e s p x = some s1 ∧ s1.n = s.n ∧
      s1.t.length = 2 * s.n ∧
      SegmentTree.get e s1 p = x ∧
      (∀ q, q < s.n → q ≠ p → SegmentTree.get e s1 q = SegmentTree.get e s q) ∧
      ∀ i, (∀ j, (p + s.n) >>> j ≠ i) → s1.t.getD i e = s.t.getD i e := by
  obtain ⟨t1, h1, h2, h3⟩ := @SegmentTree.climb_frame T op e (p + s.n) (p + s.n)
    (s.t.set (p + s.n) x) (Nat.le_refl _)
  refine ⟨{ t := t1, n := s.n }, ?_, rfl, ?_, ?_, ?_, ?_⟩
  · simp only [SegmentTree.update]
    rw [h1, Option.map_some']
  · rw [h2, List.length_set, hlen]
  · simp only [SegmentTree.get]
    rw [h3 _ (SegmentTree.leaf_not_ancestor s.n p p hp),
      getD_set_same _ _ _ _ (by omega)]
  · intro q _ hqp
    simp only [SegmentTree.get]
    rw [h3 _ (SegmentTree.leaf_not_ancestor s.n p q hp),
      getD_set_other _ _ _ _ _ (by omega)]
  · intro i hi
    rw [h3 i (not_ancestor_of_shiftRight_ne _ _ hi),
      getD_set_other _ _ _ _ _ (fun h => hi 0 (by rw [Nat.shiftRight_zero]; exact h))]

/-- Witness of C17: strings under concatenation, `build(["a","b","c","d"])`,
`update(1, "X")`. -/
theorem C17_update_is_point_assignment_witness :
    ∃ s1, SegmentTree.update String.append ""
        (SegmentTree.build String.append "" ["a", "b", "c", "d"]) 1 "X" = some s1 ∧
      s1.n = 4 ∧ s1.t.length = 2 * 4 ∧ SegmentTree.get "" s1 1 = "X" ∧
      (∀ q, q < 4 → q ≠ 1 →
        SegmentTree.get "" s1 q =
          SegmentTree.get "" (SegmentTree.build String.append "" ["a", "b", "c", "d"]) q) ∧
      ∀ i, (∀ j, (1 + 4) >>> j ≠ i) →
        s1.t.getD i "" =
          (SegmentTree.build String.append "" ["a", "b", "c", "d"]).t.getD i "" :=
  C17_update_is_point_assignment String.append ""
    (SegmentTree.build String.append "" ["a", "b", "c", "d"]) (by decide) 1 (by decide) "X"

/-- C14. For every `op`, `e` and every sequence `v`, after `build(v)` the tree has
`n = |v|`, a storage `t` of length `2n`, `t[n + k] = v[k]` for every `k < n` (so
`get(k) = v[k]`), and `t[i] = op(t[2i], t[2i+1])` for every `i ∈ [1, n)`. -/
theorem C14_build_layout {T : Type} (op : T → T → T) (e : T) (v : List T) :
    (SegmentTree.build op e v).n = v.length ∧
      (SegmentTree.build op e v).t.length = 2 * v.length ∧
      (∀ k (hk : k < v.length),
        (SegmentTree.build op e v).t.getD (v.length + k) e = v[k] ∧
          SegmentTree.get e (SegmentTree.build op e v) k = v[k]) ∧
      ∀ i, 1 ≤ i → i < v.length →
        (SegmentTree.build op e v).t.getD i e =
          op ((SegmentTree.build op e v).t.getD (2 * i) e)
            ((SegmentTree.build op e v).t.getD (2 * i + 1) e) := by
  refine ⟨rfl, SegmentTree.build_length v, ?_, fun i h1 hi => SegmentTree.build_node v i h1 hi⟩
  intro k hk
  have h := @SegmentTree.build_leaf T op e v k hk
  rw [getD_of_lt v k e hk] at h
  refine ⟨?_, h⟩
  rw [Nat.add_comm]
  exact h

/-- Witness of C14 on three leaves: strings under concatenation, `build(["a","b","c"])`,
leaf `k = 2` and internal node `i = 2`. -/
theorem C14_build_layout_witness :
    (SegmentTree.build String.append "" ["a", "b", "c"]).t.getD (3 + 2) "" = "c" ∧
      (SegmentTree.build String.append "" ["a", "b", "c"]).t.getD 2 "" =
        String.append ((SegmentTree.build String.append "" ["a", "b", "c"]).t.getD (2 * 2) "")
          ((SegmentTree.build String.append "" ["a", "b", "c"]).t.getD (2 * 2 + 1) "") :=
  ⟨((C14_build_layout String.append "" ["a", "b", "c"]).2.2.1 2 (by decide)).1,
    (C14_build_layout String.append "" ["a", "b", "c"]).2.2.2 2 (by decide) (by decide)⟩

/-! ## Segment tree: the node identity under `update` and `add` for a commutative `op` -/

namespace SegmentTree

variable {T : Type} {op : T → T → T} {e : T}

/-- With a commutative `op`, the loop entered at `p` repairs the node identity at every
proper ancestor of `p`. -/
theorem climb_nodeInv (hc : IsComm op) (n fuel p : Nat) (t : List T) (hf : p ≤ fuel)
    (hlen : t.length = 2 * n) (hp : p < 2 * n)
    (hinv : ∀ i, 1 ≤ i → i < n → ¬ Ancestor p i →
      t.getD i e = op (t.getD (2 * i) e) (t.getD (2 * i + 1) e)) :
    ∃ t1, climb op e fuel p t = some t1 ∧ NodeInv op e t1 n := by
  induction fuel generalizing p t with
  | zero =>
    have hp1 : ¬ p > 1 := by omega
    refine ⟨t, by simp only [climb, if_neg hp1], ?_⟩
    intro i h1 hi
    exact hinv i h1 hi (fun h => by have := ancestor_le _ _ h; omega)
  | succ fuel ih =>
    by_cases hp1 : p > 1
    · simp only [climb, if_pos hp1, shiftRight_one_eq]
      apply ih (p / 2) _ (by omega) (by rw [List.length_set]; exact hlen) (by omega)
      intro i h1 hi hanc
      by_cases hip : i = p / 2
      · subst hip
        rw [getD_set_same _ _ _ _ (by omega), getD_set_other _ _ _ _ _ (by omega),
          getD_set_other _ _ _ _ _ (by omega), xor_one_eq]
        rcases Nat.mod_two_eq_zero_or_one p with h0 | h0
        · rw [if_pos h0]
          have e1 : 2 * (p / 2) = p := by omega
          rw [e1]
        · rw [if_neg (by omega)]
          have e1 : 2 * (p / 2) + 1 = p := by omega
          have e2 : 2 * (p / 2) = p - 1 := by omega
          rw [e1, e2]
          exact hc _ _
      · have hna : ¬ Ancestor p i := by
          intro h
          rcases ancestor_cases p i h with h2 | h2
          · exact hip h2
          · exact hanc h2
        have hc1 : p / 2 ≠ 2 * i := by
          intro h
          exact hanc ⟨1, Nat.le_refl 1, by rw [pow_one, h]; omega⟩
        have hc2 : p / 2 ≠ 2 * i + 1 := by
          intro h
          exact hanc ⟨1, Nat.le_refl 1, by rw [pow_one, h]; omega⟩
        rw [getD_set_other _ _ _ _ _ (fun h => hip h.symm), getD_set_other _ _ _ _ _ hc1,
          getD_set_other _ _ _ _ _ hc2]
        exact hinv i h1 hi hna
    · refine ⟨t, by simp only [climb, if_neg hp1], ?_⟩
      intro i h1 hi
      exact hinv i h1 hi (fun h => by have := ancestor_le _ _ h; omega)

/-- Writing the leaf `p + n` leaves the node identity intact away from its ancestors. -/
theorem leaf_write_inv (n p : Nat) (t : List T) (x : T) (hinv : NodeInv op e t n) :
    ∀ i, 1 ≤ i → i < n → ¬ Ancestor (p + n) i →
      (t.set (p + n) x).getD i e =
        op ((t.set (p + n) x).getD (2 * i) e) ((t.set (p + n) x).getD (2 * i + 1) e) := by
  intro i h1 hi hanc
  have hc1 : p + n ≠ 2 * i := by
    intro h
    exact hanc ⟨1, Nat.le_refl 1, by rw [pow_one, h]; omega⟩
  have hc2 : p + n ≠ 2 * i + 1 := by
    intro h
    exact hanc ⟨1, Nat.le_refl 1, by rw [pow_one, h]; omega⟩
  rw [getD_set_other _ _ _ _ _ (by omega), getD_set_other _ _ _ _ _ hc1,
    getD_set_other _ _ _ _ _ hc2]
  exact hinv i h1 hi

theorem step_nodeInv (hc : IsComm op) (s : SegmentTree T) (hlen : s.t.length = 2 * s.n)
    (hinv : NodeInv op e s.t s.n) (o : PointOp T) (ho : o.pos < s.n) :
    ∃ s1, step op e s o = some s1 ∧ s1.n = s.n ∧ s1.t.length = 2 * s1.n ∧
      NodeInv op e s1.t s1.n := by
  cases o with
  | update p x =>
    have hp : p < s.n := ho
    obtain ⟨t1, h1, h2⟩ := climb_nodeInv hc s.n (p + s.n) (p + s.n) (s.t.set (p + s.n) x)
      (Nat.le_refl _) (by rw [List.length_set]; exact hlen) (by omega)
      (leaf_write_inv s.n p s.t x hinv)
    obtain ⟨t2, h3, h4, _⟩ := @climb_frame T op e (p + s.n) (p + s.n)
      (s.t.set (p + s.n) x) (Nat.le_refl _)
    have h5 : t2 = t1 := Option.some.inj (h3.symm.trans h1)
    refine ⟨{ t := t1, n := s.n }, ?_, rfl, ?_, h2⟩
    · simp only [step, update]
      rw [h1, Option.map_some']
    · rw [← h5, h4, List.length_set, hlen]
  | add p x =>
    have hp : p < s.n := ho
    obtain ⟨t1, h1, h2⟩ := climb_nodeInv hc s.n (p + s.n) (p + s.n)
      (s.t.set (p + s.n) (op (s.t.getD (p + s.n) e) x))
      (Nat.le_refl _) (by rw [List.length_set]; exact hlen) (by omega)
      (leaf_write_inv s.n p s.t _ hinv)
    obtain ⟨t2, h3, h4, _⟩ := @climb_frame T op e (p + s.n) (p + s.n)
      (s.t.set (p + s.n) (op (s.t.getD (p + s.n) e) x)) (Nat.le_refl _)
    have h5 : t2 = t1 := Option.some.inj (h3.symm.trans h1)
    refine ⟨{ t := t1, n := s.n }, ?_, rfl, ?_, h2⟩
    · simp only [step, add]
      rw [h1, Option.map_some']
    · rw [← h5, h4, List.length_set, hlen]

theorem run_nodeInv (hc : IsComm op) (ops : List (PointOp T)) (s : SegmentTree T)
    (hlen : s.t.length = 2 * s.n) (hinv : NodeInv op e s.t s.n)
    (hops : ∀ o ∈ ops, o.pos < s.n) :
    ∃ s1, run op e s ops = some s1 ∧ s1.n = s.n ∧ s1.t.length = 2 * s1.n ∧
      NodeInv op e s1.t s1.n := by
  induction ops generalizing s with
  | nil => exact ⟨s, rfl, rfl, hlen, hinv⟩
  | cons o os ih =>
    obtain ⟨s1, h1, h2, h3, h4⟩ :=
      step_nodeInv hc s hlen hinv o (hops o (List.mem_cons_self _ _))
    obtain ⟨s2, h5, h6, h7, h8⟩ := ih s1 h3 h4
      (fun o1 ho1 => by rw [h2]; exact hops o1 (List.mem_cons_of_mem _ ho1))
    refine ⟨s2, ?_, by rw [h6, h2], h7, h8⟩
    simp only [run]
    rw [h1, Option.some_bind, h5]

/-- The cells `t[l + n, l + n + k)` are the values `get(l), ..., get(l + k - 1)`. -/
theorem take_drop_eq_map_get (t : List T) (n : Nat) :
    ∀ k l, l + n + k ≤ t.length →
      (t.drop (l + n)).take k = (List.range' l k).map (fun q => t.getD (q + n) e) := by
  intro k
  induction k with
  | zero => intro l _; simp
  | succ k ih =>
    intro l h
    have hlt : l + n < t.length := by omega
    have e1 : l + n + 1 = l + 1 + n := by omega
    rw [List.drop_eq_getElem_cons hlt, List.take_succ_cons, List.range'_succ, List.map_cons,
      getD_of_lt t (l + n) e hlt, e1, ih (l + 1) (by omega)]

end SegmentTree

/-- C16. For every commutative monoid `(op, e)`, every sequence `v` and every finite
sequence of `update(p, x)` / `add(p, x)` calls with `0 ≤ p < n` applied after `build(v)`:
all calls return, the node identity `t[i] = op(t[2i], t[2i+1])` holds for all `i ∈ [1, n)`,
and `query(l, r)` is the fold of `op` over the current leaves `get(l), ..., get(r-1)` for
all `0 ≤ l ≤ r ≤ n`. -/
theorem C16_queries_under_updates_commutative {T : Type} (op : T → T → T) (e : T)
    (hm : IsMonoid op e) (hc : IsComm op) (v : List T) (ops : List (PointOp T))
    (hops : ∀ o ∈ ops, o.pos < v.length) :
    ∃ s, SegmentTree.run op e (SegmentTree.build op e v) ops = some s ∧
      s.n = v.length ∧
      (∀ i, 1 ≤ i → i < s.n →
        s.t.getD i e = op (s.t.getD (2 * i) e) (s.t.getD (2 * i + 1) e)) ∧
      ∀ l r, l ≤ r → r ≤ s.n →
        SegmentTree.query op e s l r =
          some (((List.range' l (r - l)).map (fun q => SegmentTree.get e s q)).foldl op e) := by
  obtain ⟨s, h1, h2, h3, h4⟩ := SegmentTree.run_nodeInv hc ops (SegmentTree.build op e v)
    (SegmentTree.build_length v) (SegmentTree.build_nodeInv v) hops
  refine ⟨s, h1, h2, h4, ?_⟩
  intro l r hlr hrn
  rw [SegmentTree.query_of_nodeInv hm s h3 h4 l r hlr hrn]
  unfold foldRange
  have e1 : r + s.n - (l + s.n) = r - l := by omega
  rw [e1, @SegmentTree.take_drop_eq_map_get T e s.t s.n (r - l) l (by omega)]
  rfl

/-- Witness of C16: integer sum on `[3,1,4,1,5,9,2,6]` with the calls `update(4, 0)` then
`add(0, 10)`; `query(0, 8)` is 31 after `build`, 26 after the update, 36 after the add. -/
theorem C16_queries_under_updates_commutative_witness :
    (∃ s, SegmentTree.run (fun a b : Int => a + b) 0
          (SegmentTree.build (fun a b : Int => a + b) 0 [3, 1, 4, 1, 5, 9, 2, 6])
          [PointOp.update 4 0, PointOp.add 0 10] = some s ∧
        s.n = 8 ∧
        (∀ i, 1 ≤ i → i < s.n →
          s.t.getD i 0 = s.t.getD (2 * i) 0 + s.t.getD (2 * i + 1) 0) ∧
        ∀ l r, l ≤ r → r ≤ s.n →
          SegmentTree.query (fun a b : Int => a + b) 0 s l r =
            some (((List.range' l (r - l)).map (fun q => SegmentTree.get 0 s q)).foldl
              (fun a b : Int => a + b) 0)) ∧
      SegmentTree.query (fun a b : Int => a + b) 0
          (SegmentTree.build (fun a b : Int => a + b) 0 [3, 1, 4, 1, 5, 9, 2, 6]) 0 8
        = some 31 ∧
      ((SegmentTree.run (fun a b : Int => a + b) 0
          (SegmentTree.build (fun a b : Int => a + b) 0 [3, 1, 4, 1, 5, 9, 2, 6])
          [PointOp.update 4 0]).bind fun s =>
            SegmentTree.query (fun a b : Int => a + b) 0 s 0 8) = some 26 ∧
      ((SegmentTree.run (fun a b : Int => a + b) 0
          (SegmentTree.build (fun a b : Int => a + b) 0 [3, 1, 4, 1, 5, 9, 2, 6])
          [PointOp.update 4 0, PointOp.add 0 10]).bind fun s =>
            SegmentTree.query (fun a b : Int => a + b) 0 s 0 8) = some 36 :=
  ⟨C16_queries_under_updates_commutative (fun a b : Int => a + b) 0
      ⟨Int.add_assoc, Int.zero_add, Int.add_zero⟩ Int.add_comm [3, 1, 4, 1, 5, 9, 2, 6]
      [PointOp.update 4 0, PointOp.add 0 10] (by decide),
    by decide, by decide, by decide⟩

/-! ## Segment tree: indices touched and termination -/

namespace SegmentTree

variable {T : Type} {op : T → T → T} {e : T}

theorem climbTrace_safe (n fuel p : Nat) (hf : p ≤ fuel) (hp : p < 2 * n) :
    ∃ is, climbTrace fuel p = some is ∧ ∀ i ∈ is, 1 ≤ i ∧ i < 2 * n := by
  induction fuel generalizing p with
  | zero =>
    have hp1 : ¬ p > 1 := by omega
    exact ⟨[], by simp only [climbTrace, if_neg hp1], fun i hi => by simp at hi⟩
  | succ fuel ih =>
    by_cases hp1 : p > 1
    · obtain ⟨rest, h1, h2⟩ := ih (p / 2) (by omega) (by omega)
      refine ⟨p :: (p ^^^ 1) :: (p / 2) :: rest, ?_, ?_⟩
      · simp only [climbTrace, if_pos hp1, shiftRight_one_eq]
        rw [h1, Option.map_some']
      · intro i hi
        simp only [List.mem_cons] at hi
        rcases hi with h | h | h | h
        · omega
        · rw [h, xor_one_eq]
          split <;> omega
        · omega
        · exact h2 i h
    · exact ⟨[], by simp only [climbTrace, if_neg hp1], fun i hi => by simp at hi⟩

theorem queryLoopTrace_safe (n fuel l r : Nat) (hf : r < fuel) (hl : 1 ≤ l) (hlr : l ≤ r)
    (hr : r ≤ 2 * n) :
    ∃ is, queryLoopTrace fuel l r = some is ∧ ∀ i ∈ is, 1 ≤ i ∧ i < 2 * n := by
  induction fuel generalizing l r with
  | zero => omega
  | succ fuel ih =>
    by_cases hlt : l < r
    · obtain ⟨rest, h1, h2⟩ := ih ((if l % 2 = 1 then l + 1 else l) / 2)
        ((if r % 2 = 1 then r - 1 else r) / 2) (by split <;> omega) (by split <;> omega)
        (by split <;> split <;> omega) (by split <;> omega)
      refine ⟨(if l % 2 = 1 then [l] else []) ++
        (if r % 2 = 1 then [if r % 2 = 1 then r - 1 else r] else []) ++ rest, ?_, ?_⟩
      · simp only [queryLoopTrace, if_pos hlt, Nat.and_one_is_mod, shiftRight_one_eq]
        rw [h1, Option.map_some']
      · intro i hi
        simp only [List.mem_append] at hi
        rcases hi with (h | h) | h
        · split at h
          · simp only [List.mem_singleton] at h; omega
          · simp at h
        · split at h
          · simp only [List.mem_singleton] at h
            omega
          · simp at h
        · exact h2 i h
    · exact ⟨[], by simp only [queryLoopTrace, if_neg hlt], fun i hi => by simp at hi⟩

theorem queryLoop_terminates (t : List T) (fuel l r : Nat) (accl accr : T) (hf : r < fuel) :
    (queryLoop op e t fuel l r accl accr).isSome = true := by
  induction fuel generalizing l r accl accr with
  | zero => omega
  | succ fuel ih =>
    by_cases hlt : l < r
    · simp only [queryLoop, if_pos hlt, Nat.and_one_is_mod, shiftRight_one_eq]
      apply ih
      split <;> omega
    · simp only [queryLoop, if_neg hlt, Option.isSome_some]

end SegmentTree

/-- C19. On a tree with `n` leaves (storage indices `[0, 2n)`): if `0 ≤ l ≤ r ≤ n` the
loop of `query(l, r)` terminates and every index it reads lies in `[1, 2n)`; if
`0 ≤ p < n` the loops of `update(p, x)` and `add(p, x)` terminate and every index they read
or write lies in `[1, 2n)`. Position `0` is never touched. -/
theorem C19_index_safety_and_termination {T : Type} (op : T → T → T) (e : T)
    (s : SegmentTree T) (l r p : Nat) (x : T) (hlr : l ≤ r) (hrn : r ≤ s.n) (hp : p < s.n) :
    ((SegmentTree.query op e s l r).isSome = true ∧
        ∃ is, SegmentTree.queryTrace s.n l r = some is ∧ ∀ i ∈ is, 1 ≤ i ∧ i < 2 * s.n) ∧
      ((SegmentTree.update op e s p x).isSome = true ∧
        ∃ is, SegmentTree.updateTrace s.n p = some is ∧ ∀ i ∈ is, 1 ≤ i ∧ i < 2 * s.n) ∧
      ((SegmentTree.add op e s p x).isSome = true ∧
        ∃ is, SegmentTree.addTrace s.n p = some is ∧ ∀ i ∈ is, 1 ≤ i ∧ i < 2 * s.n) := by
  refine ⟨⟨?_, ?_⟩, ⟨?_, ?_⟩, ⟨?_, ?_⟩⟩
  · simp only [SegmentTree.query, Option.isSome_map']
    exact SegmentTree.queryLoop_terminates _ _ _ _ _ _ (by omega)
  · exact SegmentTree.queryLoopTrace_safe s.n (r + s.n + 1) (l + s.n) (r + s.n) (by omega)
      (by omega) (by omega) (by omega)
  · obtain ⟨t1, h1, _, _⟩ := @SegmentTree.climb_frame T op e (p + s.n) (p + s.n)
      (s.t.set (p + s.n) x) (Nat.le_refl _)
    simp only [SegmentTree.update]
    rw [h1]; rfl
  · obtain ⟨rest, h1, h2⟩ := SegmentTree.climbTrace_safe s.n (p + s.n) (p + s.n)
      (Nat.le_refl _) (by omega)
    refine ⟨(p + s.n) :: rest, ?_, ?_⟩
    · simp only [SegmentTree.updateTrace]
      rw [h1, Option.map_some']
    · intro i hi
      rcases List.mem_cons.mp hi with h | h
      · omega
      · exact h2 i h
  · obtain ⟨t1, h1, _, _⟩ := @SegmentTree.climb_frame T op e (p + s.n) (p + s.n)
      (s.t.set (p + s.n) (op (s.t.getD (p + s.n) e) x)) (Nat.le_refl _)
    simp only [SegmentTree.add]
    rw [h1]; rfl
  · obtain ⟨rest, h1, h2⟩ := SegmentTree.climbTrace_safe s.n (p + s.n) (p + s.n)
      (Nat.le_refl _) (by omega)
    refine ⟨(p + s.n) :: (p + s.n) :: rest, ?_, ?_⟩
    · simp only [SegmentTree.addTrace]
      rw [h1, Option.map_some']
    · intro i hi
      simp only [List.mem_cons] at hi
      rcases hi with h | h | h
      · omega
      · omega
      · exact h2 i h

/-- Witness of C19 on three leaves: `query(1, 3)`, `update(2, "X")` and `add(2, "X")` on
the tree built from `["a","b","c"]`. -/
theorem C19_index_safety_and_termination_witness :
    ((SegmentTree.query String.append ""
          (SegmentTree.build String.append "" ["a", "b", "c"]) 1 3).isSome = true ∧
        ∃ is, SegmentTree.queryTrace 3 1 3 = some is ∧ ∀ i ∈ is, 1 ≤ i ∧ i < 2 * 3) ∧
      ((SegmentTree.update String.append ""
          (SegmentTree.build String.append "" ["a", "b", "c"]) 2 "X").isSome = true ∧
        ∃ is, SegmentTree.updateTrace 3 2 = some is ∧ ∀ i ∈ is, 1 ≤ i ∧ i < 2 * 3) ∧
      ((SegmentTree.add String.append ""
          (SegmentTree.build String.append "" ["a", "b", "c"]) 2 "X").isSome = true ∧
        ∃ is, SegmentTree.addTrace 3 2 = some is ∧ ∀ i ∈ is, 1 ≤ i ∧ i < 2 * 3) :=
  C19_index_safety_and_termination String.append ""
    (SegmentTree.build String.append "" ["a", "b", "c"]) 1 3 2 "X" (by decide) (by decide)
    (by decide)

namespace math

/-! ## Matrices: the static and the dynamic variant side by side -/

section Variants

variable {V : Type}

theorem Matrix.new_values (T : MonoidOps V) (N M : Nat) :
    (Matrix.new T N M).values = List.replicate N (List.replicate M T.zero) :=
  shaped_ext T.zero (Matrix.new_shaped T N M) (shaped_replicate N M T.zero)
    (fun i j hi hj => by
      rw [Matrix.new_cell T N M i j hi hj, readCell_replicate _ _ _ _ i j hi hj])

end Variants

/-- C11. For every element structure and dimensions `N, M, K ≥ 1`: if a static
`Matrix<T,N,M>` and a `DynMatrix<T>` of dimensions `(N, M)` hold the same cells (and likewise
the second operands, `N×M` for add and sub, `M×K` for mul), then add, sub, unary negation
and multiplication succeed on the dynamic side and give the dimensions and the cells of the
static result. -/
theorem C11_static_dynamic_equivalence {V : Type} (TM : MonoidOps V) (TG : GroupOps V)
    (TS : SemiringOps V) {N M K : Nat} (hN : 0 < N) (hM : 0 < M) (hK : 0 < K)
    (sa sb : Matrix V N M) (sc : Matrix V M K) (a b c : DynMatrix V)
    (ha : a.n = N ∧ a.m = M ∧ a.values = sa.values)
    (hb : b.n = N ∧ b.m = M ∧ b.values = sb.values)
    (hc : c.n = M ∧ c.m = K ∧ c.values = sc.values) :
    (∃ d, DynMatrix.add TM a b = some d ∧ d.n = N ∧ d.m = M ∧
        d.values = (Matrix.add TM sa sb).values) ∧
      (∃ d, DynMatrix.sub TG a b = some d ∧ d.n = N ∧ d.m = M ∧
        d.values = (Matrix.sub TG sa sb).values) ∧
      (∃ d, DynMatrix.neg TG a = some d ∧ d.n = N ∧ d.m = M ∧
        d.values = (Matrix.neg TG sa).values) ∧
      (∃ d, DynMatrix.mul TS a c = some d ∧ d.n = N ∧ d.m = K ∧
        d.values = (Matrix.mul TS sa sc).values) := by
  obtain ⟨va, na, ma, qa⟩ := a
  obtain ⟨vb, nb, mb, qb⟩ := b
  obtain ⟨vc, nc, mc, qc⟩ := c
  simp only at ha hb hc
  obtain ⟨rfl, rfl, rfl⟩ := ha
  obtain ⟨rfl, rfl, rfl⟩ := hb
  obtain ⟨rfl, rfl, rfl⟩ := hc
  refine ⟨?_, ?_, ?_, ?_⟩
  · rw [DynMatrix.add, if_pos ⟨rfl, rfl⟩, DynMatrix.new, if_pos ⟨hN, hM⟩, Option.map_some']
    exact ⟨_, rfl, rfl, rfl, by rw [Matrix.add, Matrix.new_values]⟩
  · rw [DynMatrix.sub, if_pos ⟨rfl, rfl⟩, DynMatrix.new, if_pos ⟨hN, hM⟩, Option.map_some']
    exact ⟨_, rfl, rfl, rfl, by rw [Matrix.sub, Matrix.new_values]⟩
  · rw [DynMatrix.neg, DynMatrix.new, if_pos ⟨hN, hM⟩, Option.map_some']
    exact ⟨_, rfl, rfl, rfl, by rw [Matrix.neg, Matrix.new_values]⟩
  · rw [DynMatrix.mul, if_pos rfl, DynMatrix.new, if_pos ⟨hN, hK⟩, Option.map_some']
    exact ⟨_, rfl, rfl, rfl, by rw [Matrix.mul, Matrix.new_values]⟩

/-- Witness of C11 over the integers: `A = [[1,2,3],[4,5,6]]` and `B = [[6,5,4],[3,2,1]]`
(2×3), `C = [[7,8],[9,10],[11,12]]` (3×2). -/
theorem C11_static_dynamic_equivalence_witness :
    (∃ d, DynMatrix.add intGroup.toMonoidOps ⟨[[1, 2, 3], [4, 5, 6]], 2, 3, false⟩
          ⟨[[6, 5, 4], [3, 2, 1]], 2, 3, false⟩ = some d ∧ d.n = 2 ∧ d.m = 3 ∧
        d.values = (Matrix.add intGroup.toMonoidOps
          (⟨[[1, 2, 3], [4, 5, 6]]⟩ : Matrix Int 2 3) ⟨[[6, 5, 4], [3, 2, 1]]⟩).values) ∧
      (∃ d, DynMatrix.sub intGroup ⟨[[1, 2, 3], [4, 5, 6]], 2, 3, false⟩
          ⟨[[6, 5, 4], [3, 2, 1]], 2, 3, false⟩ = some d ∧ d.n = 2 ∧ d.m = 3 ∧
        d.values = (Matrix.sub intGroup
          (⟨[[1, 2, 3], [4, 5, 6]]⟩ : Matrix Int 2 3) ⟨[[6, 5, 4], [3, 2, 1]]⟩).values) ∧
      (∃ d, DynMatrix.neg intGroup ⟨[[1, 2, 3], [4, 5, 6]], 2, 3, false⟩ = some d ∧
        d.n = 2 ∧ d.m = 3 ∧
        d.values = (Matrix.neg intGroup (⟨[[1, 2, 3], [4, 5, 6]]⟩ : Matrix Int 2 3)).values) ∧
      (∃ d, DynMatrix.mul intSemiring ⟨[[1, 2, 3], [4, 5, 6]], 2, 3, false⟩
          ⟨[[7, 8], [9, 10], [11, 12]], 3, 2, false⟩ = some d ∧ d.n = 2 ∧ d.m = 2 ∧
        d.values = (Matrix.mul intSemiring (⟨[[1, 2, 3], [4, 5, 6]]⟩ : Matrix Int 2 3)
          (⟨[[7, 8], [9, 10], [11, 12]]⟩ : Matrix Int 3 2)).values) :=
  C11_static_dynamic_equivalence intGroup.toMonoidOps intGroup intSemiring
    (by decide) (by decide) (by decide)
    ⟨[[1, 2, 3], [4, 5, 6]]⟩ ⟨[[6, 5, 4], [3, 2, 1]]⟩ ⟨[[7, 8], [9, 10], [11, 12]]⟩
    ⟨[[1, 2, 3], [4, 5, 6]], 2, 3, false⟩ ⟨[[6, 5, 4], [3, 2, 1]], 2, 3, false⟩
    ⟨[[7, 8], [9, 10], [11, 12]], 3, 2, false⟩ ⟨rfl, rfl, rfl⟩ ⟨rfl, rfl, rfl⟩ ⟨rfl, rfl, rfl⟩

/-- C12. `DynMatrix` validates dimensions at call time: on well-formed operands `A + B` and
`A - B` fail exactly when `(A.n, A.m) ≠ (B.n, B.m)` and otherwise return an `A.n × A.m`
matrix; `A * B` fails exactly when `A.m ≠ B.n` and otherwise returns an `A.n × B.m`
matrix. -/
theorem C12_dimension_validation {V : Type} (TM : MonoidOps V) (TG : GroupOps V)
    (TS : SemiringOps V) (a b : DynMatrix V) (ha : a.WF) (hb : b.WF) :
    ((DynMatrix.add TM a b = none ↔ ¬ (a.n = b.n ∧ a.m = b.m)) ∧
        ∀ c, DynMatrix.add TM a b = some c → c.n = a.n ∧ c.m = a.m) ∧
      ((DynMatrix.sub TG a b = none ↔ ¬ (a.n = b.n ∧ a.m = b.m)) ∧
        ∀ c, DynMatrix.sub TG a b = some c → c.n = a.n ∧ c.m = a.m) ∧
      ((DynMatrix.mul TS a b = none ↔ a.m ≠ b.n) ∧
        ∀ c, DynMatrix.mul TS a b = some c → c.n = a.n ∧ c.m = b.m) := by
  refine ⟨?_, ?_, ?_⟩
  · by_cases h : a.n = b.n ∧ a.m = b.m
    · obtain ⟨d, h1, _, h3, h4, _⟩ := DynMatrix.dyn_add_spec TM a b ha h.1 h.2
      refine ⟨⟨fun hn => ?_, fun hn => absurd h hn⟩, fun c hc => ?_⟩
      · rw [h1] at hn; exact absurd hn (by simp)
      · rw [h1] at hc
        rw [← Option.some.inj hc]
        exact ⟨h3, h4⟩
    · have h1 : DynMatrix.add TM a b = none := by rw [DynMatrix.add, if_neg h]
      exact ⟨⟨fun _ => h, fun _ => h1⟩, fun c hc => by rw [h1] at hc; exact absurd hc (by simp)⟩
  · by_cases h : a.n = b.n ∧ a.m = b.m
    · obtain ⟨d, h1, _, h3, h4, _⟩ := DynMatrix.dyn_sub_spec TG a b ha h.1 h.2
      refine ⟨⟨fun hn => ?_, fun hn => absurd h hn⟩, fun c hc => ?_⟩
      · rw [h1] at hn; exact absurd hn (by simp)
      · rw [h1] at hc
        rw [← Option.some.inj hc]
        exact ⟨h3, h4⟩
    · have h1 : DynMatrix.sub TG a b = none := by rw [DynMatrix.sub, if_neg h]
      exact ⟨⟨fun _ => h, fun _ => h1⟩, fun c hc => by rw [h1] at hc; exact absurd hc (by simp)⟩
  · by_cases h : a.m = b.n
    · obtain ⟨d, h1, _, h3, h4, _⟩ := DynMatrix.dyn_mul_spec TS a b ha hb h
      refine ⟨⟨fun hn => ?_, fun hn => absurd h hn⟩, fun c hc => ?_⟩
      · rw [h1] at hn; exact absurd hn (by simp)
      · rw [h1] at hc
        rw [← Option.some.inj hc]
        exact ⟨h3, h4⟩
    · have h1 : DynMatrix.mul TS a b = none := by rw [DynMatrix.mul, if_neg h]
      exact ⟨⟨fun _ => h, fun _ => h1⟩, fun c hc => by rw [h1] at hc; exact absurd hc (by simp)⟩

/-- Witness of C12 over the integers: `A = [[1,2,3],[4,5,6]]` (2×3) and
`B = [[7,8],[9,10],[11,12]]` (3×2): `A + B` and `A - B` fail, `A * B` is 2×2. -/
theorem C12_dimension_validation_witness :
    ((DynMatrix.add intGroup.toMonoidOps ⟨[[1, 2, 3], [4, 5, 6]], 2, 3, false⟩
          ⟨[[7, 8], [9, 10], [11, 12]], 3, 2, false⟩ = none ↔
          ¬ ((2 : Nat) = 3 ∧ (3 : Nat) = 2)) ∧
        ∀ c, DynMatrix.add intGroup.toMonoidOps ⟨[[1, 2, 3], [4, 5, 6]], 2, 3, false⟩
          ⟨[[7, 8], [9, 10], [11, 12]], 3, 2, false⟩ = some c → c.n = 2 ∧ c.m = 3) ∧
      ((DynMatrix.sub intGroup ⟨[[1, 2, 3], [4, 5, 6]], 2, 3, false⟩
          ⟨[[7, 8], [9, 10], [11, 12]], 3, 2, false⟩ = none ↔
          ¬ ((2 : Nat) = 3 ∧ (3 : Nat) = 2)) ∧
        ∀ c, DynMatrix.sub intGroup ⟨[[1, 2, 3], [4, 5, 6]], 2, 3, false⟩
          ⟨[[7, 8], [9, 10], [11, 12]], 3, 2, false⟩ = some c → c.n = 2 ∧ c.m = 3) ∧
      ((DynMatrix.mul intSemiring ⟨[[1, 2, 3], [4, 5, 6]], 2, 3, false⟩
          ⟨[[7, 8], [9, 10], [11, 12]], 3, 2, false⟩ = none ↔ (3 : Nat) ≠ 3) ∧
        ∀ c, DynMatrix.mul intSemiring ⟨[[1, 2, 3], [4, 5, 6]], 2, 3, false⟩
          ⟨[[7, 8], [9, 10], [11, 12]], 3, 2, false⟩ = some c → c.n = 2 ∧ c.m = 2) :=
  C12_dimension_validation intGroup.toMonoidOps intGroup intSemiring
    ⟨[[1, 2, 3], [4, 5, 6]], 2, 3, false⟩ ⟨[[7, 8], [9, 10], [11, 12]], 3, 2, false⟩
    (by simp [DynMatrix.WF, Shaped]) (by simp [DynMatrix.WF, Shaped])

/-! ## Matrices: `identity` and `pow` -/

section Power

variable {V : Type}

theorem readCell_diagLoop (d : V) {n : Nat} (x : V) (is : List Nat)
    (his : ∀ i ∈ is, i < n) (a b : Nat) (vals : List (List V)) (hs : Shaped vals n n) :
    readCell d (is.foldl (fun vals i => writeCell vals i i x) vals) a b =
      if a = b ∧ a ∈ is then x else readCell d vals a b := by
  induction is generalizing vals with
  | nil => simp
  | cons i0 is ih =>
    rw [List.foldl_cons, ih (fun i hi => his i (List.mem_cons_of_mem _ hi)) _
      (writeCell_shaped hs i0 i0 x)]
    by_cases h1 : a = b ∧ a ∈ is
    · rw [if_pos h1, if_pos ⟨h1.1, List.mem_cons_of_mem _ h1.2⟩]
    · rw [if_neg h1]
      by_cases h2 : a = i0 ∧ b = i0
      · obtain ⟨ha0, hb0⟩ := h2
        have hlt := his i0 (List.mem_cons_self _ _)
        rw [ha0, hb0, readCell_writeCell_same hs d i0 i0 x hlt hlt,
          if_pos ⟨rfl, List.mem_cons_self _ _⟩]
      · have h3 : ¬ (a = b ∧ a ∈ i0 :: is) := by
          rintro ⟨hab, hmem⟩
          rcases List.mem_cons.mp hmem with h | h
          · exact h2 ⟨h, by rw [← hab]; exact h⟩
          · exact h1 ⟨hab, h⟩
        rw [if_neg h3, readCell_writeCell_other]
        by_cases ha : i0 = a
        · right; intro hb; exact h2 ⟨ha.symm, hb.symm⟩
        · left; exact ha

/-- The code of `identity(n)`: for `n > 0` it returns the well-formed `n × n` matrix with
`one()` on the diagonal and `zero()` elsewhere. -/
theorem DynMatrix.dyn_identity_spec (T : SemiringOps V) (n : Nat) (hn : 0 < n) :
    ∃ c, DynMatrix.identity T n = some c ∧ DynMatrix.Square n c ∧
      ∀ i j, i < n → j < n →
        readCell T.zero c.values i j = if i = j then T.one else T.zero := by
  have hs0 := shaped_replicate n n T.zero
  refine ⟨{ values := (List.range n).foldl (fun vals i => writeCell vals i i T.one)
              (List.replicate n (List.replicate n T.zero)),
            n := n, m := n, isSquare := decide (n = n) }, ?_, ?_, ?_⟩
  · rw [DynMatrix.identity, if_pos hn, DynMatrix.new, if_pos ⟨hn, hn⟩, Option.map_some']
  · exact ⟨⟨hn, hn, foldl_shaped _ n n (fun _ i h => writeCell_shaped h i i T.one) _ _ hs0,
      rfl⟩, rfl, rfl⟩
  · intro i j hi hj
    show readCell T.zero ((List.range n).foldl (fun vals i => writeCell vals i i T.one)
      (List.replicate n (List.replicate n T.zero))) i j = _
    rw [readCell_diagLoop T.zero T.one (List.range n) (fun i hi => List.mem_range.mp hi)
      i j _ hs0, readCell_replicate _ _ _ _ i j hi hj]
    by_cases hij : i = j
    · rw [if_pos ⟨hij, List.mem_range.mpr hi⟩, if_pos hij]
    · rw [if_neg (fun h => hij h.1), if_neg hij]

theorem DynMatrix.square_isSquare (n : Nat) (a : DynMatrix V) (ha : DynMatrix.Square n a) :
    a.isSquare = true := by
  obtain ⟨⟨_, _, _, hq⟩, h1, h2⟩ := ha
  rw [hq, h1, h2]
  exact decide_eq_true rfl

theorem DynMatrix.mul_square (T : SemiringOps V) (n : Nat) (a b : DynMatrix V)
    (ha : DynMatrix.Square n a) (hb : DynMatrix.Square n b) :
    ∃ c, DynMatrix.mul T a b = some c ∧ DynMatrix.Square n c := by
  obtain ⟨c, h1, h2, h3, h4, _⟩ :=
    DynMatrix.dyn_mul_spec T a b ha.1 hb.1 (by rw [ha.2.2, hb.2.1])
  exact ⟨c, h1, h2, by rw [h3, ha.2.1], by rw [h4, hb.2.2]⟩

/-- The code of `operator*` is associative on square matrices of one size, as soon as
`T::mul` is associative. -/
theorem DynMatrix.mul_assoc_square (T : SemiringOps V)
    (hassoc : ∀ x y z, T.mul (T.mul x y) z = T.mul x (T.mul y z)) (n : Nat)
    (a b c : DynMatrix V) (ha : DynMatrix.Square n a) (hb : DynMatrix.Square n b)
    (hc : DynMatrix.Square n c) :
    ((DynMatrix.mul T a b).bind fun ab => DynMatrix.mul T ab c) =
      (DynMatrix.mul T b c).bind fun bc => DynMatrix.mul T a bc := by
  have hab : a.m = b.n := by rw [ha.2.2, hb.2.1]
  have hbc : b.m = c.n := by rw [hb.2.2, hc.2.1]
  obtain ⟨ab, e1, wf1, n1, m1, c1⟩ := DynMatrix.dyn_mul_spec T a b ha.1 hb.1 hab
  obtain ⟨abc, e2, wf2, n2, m2, c2⟩ :=
    DynMatrix.dyn_mul_spec T ab c wf1 hc.1 (by rw [m1]; exact hbc)
  obtain ⟨bc, e3, wf3, n3, m3, c3⟩ := DynMatrix.dyn_mul_spec T b c hb.1 hc.1 hbc
  obtain ⟨abc2, e4, wf4, n4, m4, c4⟩ :=
    DynMatrix.dyn_mul_spec T a bc ha.1 wf3 (by rw [n3]; exact hab)
  have ham : 0 < a.m := ha.1.2.1
  have hbm : 0 < b.m := hb.1.2.1
  have heq : abc = abc2 := by
    apply DynMatrix.dyn_ext_cells T.zero abc abc2 wf2 wf4 (by rw [n2, n1, n4])
      (by rw [m2, m4, m3])
    intro i j hi hj
    rw [n2, n1] at hi
    rw [m2] at hj
    rw [c2 i j (by rw [n1]; exact hi) hj, c4 i j hi (by rw [m3]; exact hj), m1,
      c1 i (b.m - 1) hi (by omega), c3 (a.m - 1) j (by omega) hj, hassoc]
  rw [e1, Option.some_bind, e2, e3, Option.some_bind, e4, heq]

theorem DynMatrix.mulRepeat_square (T : SemiringOps V) (n k : Nat) (r a : DynMatrix V)
    (hr : DynMatrix.Square n r) (ha : DynMatrix.Square n a) :
    ∃ c, DynMatrix.mulRepeat T k r a = some c ∧ DynMatrix.Square n c := by
  induction k generalizing r with
  | zero => exact ⟨r, rfl, hr⟩
  | succ k ih =>
    obtain ⟨r1, h1, h2⟩ := DynMatrix.mul_square T n r a hr ha
    obtain ⟨c, h3, h4⟩ := ih r1 h2
    exact ⟨c, by rw [DynMatrix.mulRepeat, h1, Option.some_bind, h3], h4⟩

/-- Squaring the base halves the number of factors: `r * a^(2q) = r * (a * a)^q` for the
code's `operator*`. -/
theorem DynMatrix.mulRepeat_double (T : SemiringOps V)
    (hassoc : ∀ x y z, T.mul (T.mul x y) z = T.mul x (T.mul y z)) (n q : Nat)
    (r a a2 : DynMatrix V) (hr : DynMatrix.Square n r) (ha : DynMatrix.Square n a)
    (h2 : DynMatrix.mul T a a = some a2) :
    DynMatrix.mulRepeat T (2 * q) r a = DynMatrix.mulRepeat T q r a2 := by
  induction q generalizing r with
  | zero => rfl
  | succ q ih =>
    obtain ⟨r1, h3, h4⟩ := DynMatrix.mul_square T n r a hr ha
    obtain ⟨r2, h5, h6⟩ := DynMatrix.mul_square T n r1 a h4 ha
    have h7 := DynMatrix.mul_assoc_square T hassoc n r a a hr ha ha
    rw [h3, Option.some_bind, h5, h2, Option.some_bind] at h7
    have e1 : 2 * (q + 1) = (2 * q + 1) + 1 := by omega
    rw [e1, DynMatrix.mulRepeat, h3, Option.some_bind, DynMatrix.mulRepeat, h5,
      Option.some_bind, ih r2 h6, DynMatrix.mulRepeat, ← h7, Option.some_bind]

theorem int_land_one_natCast (k : Nat) : Int.land (k : Int) 1 = ((k % 2 : Nat) : Int) := by
  show ((Nat.land k 1 : Nat) : Int) = _
  have h : Nat.land k 1 = k &&& 1 := rfl
  rw [h, Nat.and_one_is_mod]

theorem int_shiftRight_one_natCast (k : Nat) : (k : Int) >>> 1 = ((k / 2 : Nat) : Int) := by
  have h : (k : Int) >>> 1 = ((k >>> 1 : Nat) : Int) := rfl
  rw [h, shiftRight_one_eq]

/-- The loop of `pow` on a non-negative exponent `k < 2 ^ fuel` computes the naive product
`result * base^k`. -/
theorem DynMatrix.powLoop_eq_mulRepeat (T : SemiringOps V)
    (hassoc : ∀ x y z, T.mul (T.mul x y) z = T.mul x (T.mul y z)) (n fuel k : Nat)
    (r b : DynMatrix V) (hk : k < 2 ^ fuel) (hr : DynMatrix.Square n r)
    (hb : DynMatrix.Square n b) :
    DynMatrix.powLoop T fuel (k : Int) r b = DynMatrix.mulRepeat T k r b := by
  induction fuel generalizing k r b with
  | zero =>
    have hk0 : k = 0 := by simpa using hk
    subst hk0
    simp [DynMatrix.powLoop, DynMatrix.mulRepeat]
  | succ fuel ih =>
    by_cases hpos : 0 < k
    · have hpos1 : (k : Int) > 0 := by exact_mod_cast hpos
      obtain ⟨b2, h1, h2⟩ := DynMatrix.mul_square T n b b hb hb
      have hhalf : k / 2 < 2 ^ fuel := by
        rw [pow_succ] at hk; omega
      rw [DynMatrix.powLoop, if_pos hpos1, int_land_one_natCast, int_shiftRight_one_natCast]
      rcases Nat.mod_two_eq_zero_or_one k with h0 | h0
      · have hc : ¬ (((k % 2 : Nat) : Int) ≠ 0) := by rw [h0]; simp
        have e1 : k = 2 * (k / 2) := by omega
        rw [if_neg hc, Option.some_bind, h1, Option.some_bind, ih (k / 2) r b2 hhalf hr h2]
        conv_rhs => rw [e1]
        exact (DynMatrix.mulRepeat_double T hassoc n (k / 2) r b b2 hr hb h1).symm
      · have hc : ((k % 2 : Nat) : Int) ≠ 0 := by rw [h0]; simp
        obtain ⟨r1, h3, h4⟩ := DynMatrix.mul_square T n r b hr hb
        have e1 : k = 2 * (k / 2) + 1 := by omega
        rw [if_pos hc, h3, Option.some_bind, h1, Option.some_bind,
          ih (k / 2) r1 b2 hhalf h4 h2]
        conv_rhs => rw [e1, DynMatrix.mulRepeat, h3, Option.some_bind]
        exact (DynMatrix.mulRepeat_double T hassoc n (k / 2) r1 b b2 h4 hb h1).symm
    · have hk0 : k = 0 := by omega
      subst hk0
      simp [DynMatrix.powLoop, DynMatrix.mulRepeat]

/-- The loop of `pow` on a non-negative exponent `k < 2 ^ fuel` ends within its fuel and
returns a square matrix; no law of `T` is needed. -/
theorem DynMatrix.powLoop_terminates (T : SemiringOps V) (n fuel k : Nat)
    (r b : DynMatrix V) (hk : k < 2 ^ fuel) (hr : DynMatrix.Square n r)
    (hb : DynMatrix.Square n b) :
    ∃ c, DynMatrix.powLoop T fuel (k : Int) r b = some c ∧ DynMatrix.Square n c := by
  induction fuel generalizing k r b with
  | zero =>
    have hk0 : k = 0 := by simpa using hk
    subst hk0
    exact ⟨r, by simp [DynMatrix.powLoop], hr⟩
  | succ fuel ih =>
    by_cases hpos : 0 < k
    · have hpos1 : (k : Int) > 0 := by exact_mod_cast hpos
      obtain ⟨b2, h1, h2⟩ := DynMatrix.mul_square T n b b hb hb
      obtain ⟨r1, h3, h4⟩ := DynMatrix.mul_square T n r b hr hb
      have hhalf : k / 2 < 2 ^ fuel := by
        rw [pow_succ] at hk; omega
      rw [DynMatrix.powLoop, if_pos hpos1, int_shiftRight_one_natCast]
      by_cases hc : Int.land (k : Int) 1 ≠ 0
      · rw [if_pos hc, h3, Option.some_bind, h1, Option.some_bind]
        exact ih (k / 2) r1 b2 hhalf h4 h2
      · rw [if_neg hc, Option.some_bind, h1, Option.some_bind]
        exact ih (k / 2) r b2 hhalf hr h2
    · have hk0 : k = 0 := by omega
      subst hk0
      exact ⟨r, by simp [DynMatrix.powLoop], hr⟩

theorem DynMatrix.powLoop_nonpos (T : SemiringOps V) (fuel : Nat) (e : Int) (he : e ≤ 0)
    (r b : DynMatrix V) : DynMatrix.powLoop T fuel e r b = some r := by
  have hn : ¬ e > 0 := by omega
  cases fuel with
  | zero => rw [DynMatrix.powLoop, if_neg hn]
  | succ fuel => rw [DynMatrix.powLoop, if_neg hn]

end Power

/-- C15. For every semiring `T` and every square `n × n` `DynMatrix` `A`, `A.pow(0)`
returns `identity(n)`, the `n × n` matrix with `one()` on the diagonal and `zero()` off the
diagonal. -/
theorem C15_pow_zero_is_identity {V : Type} (T : SemiringOps V) (a : DynMatrix V)
    (ha : a.WF) (hsq : a.n = a.m) :
    ∃ c, DynMatrix.pow T a 0 = some c ∧ DynMatrix.identity T a.n = some c ∧
      c.n = a.n ∧ c.m = a.n ∧
      ∀ i j, i < a.n → j < a.n →
        readCell T.zero c.values i j = if i = j then T.one else T.zero := by
  obtain ⟨c, h1, h2, h3⟩ := DynMatrix.dyn_identity_spec T a.n ha.1
  have hq : a.isSquare = true := DynMatrix.square_isSquare a.n a ⟨ha, rfl, hsq.symm⟩
  refine ⟨c, ?_, h1, h2.2.1, h2.2.2, h3⟩
  rw [DynMatrix.pow, if_pos hq, h1, Option.some_bind,
    DynMatrix.powLoop_nonpos T 64 0 (Int.le_refl 0)]

/-- Witness of C15 over the integers: `[[1,1],[1,0]].pow(0) = [[1,0],[0,1]]`. -/
theorem C15_pow_zero_is_identity_witness :
    (∃ c, DynMatrix.pow intSemiring ⟨[[1, 1], [1, 0]], 2, 2, true⟩ 0 = some c ∧
        DynMatrix.identity intSemiring 2 = some c ∧ c.n = 2 ∧ c.m = 2 ∧
        ∀ i j, i < 2 → j < 2 →
          readCell intSemiring.zero c.values i j =
            if i = j then intSemiring.one else intSemiring.zero) ∧
      DynMatrix.pow intSemiring ⟨[[1, 1], [1, 0]], 2, 2, true⟩ 0
        = some ⟨[[1, 0], [0, 1]], 2, 2, true⟩ :=
  ⟨C15_pow_zero_is_identity intSemiring ⟨[[1, 1], [1, 0]], 2, 2, true⟩
      (by simp [DynMatrix.WF, Shaped]) rfl,
    by decide⟩

/-- C18. For every semiring `T` whose `mul` is associative, every square `n × n` `DynMatrix`
`A` and every exponent `0 ≤ e < 2^63`, `A.pow(e)` returns, and returns exactly the left fold
`((identity(n) * A) * A) * ... * A` with `e` factors `A`, where `*` is the library's own
`operator*`. -/
theorem C18_pow_refines_repeated_multiplication {V : Type} (T : SemiringOps V)
    (hassoc : ∀ x y z, T.mul (T.mul x y) z = T.mul x (T.mul y z)) (a : DynMatrix V)
    (ha : a.WF) (hsq : a.n = a.m) (e : Int) (h0 : 0 ≤ e) (h63 : e < 2 ^ 63) :
    DynMatrix.pow T a e = DynMatrix.naivePow T a e.toNat ∧
      (DynMatrix.pow T a e).isSome = true := by
  obtain ⟨k, rfl⟩ := Int.eq_ofNat_of_zero_le h0
  have hk : k < 2 ^ 64 := by
    have h1 : (k : Int) < 2 ^ 64 := by omega
    exact_mod_cast h1
  have hsa : DynMatrix.Square a.n a := ⟨ha, rfl, hsq.symm⟩
  obtain ⟨c, h1, h2, _⟩ := DynMatrix.dyn_identity_spec T a.n ha.1
  have hq : a.isSquare = true := DynMatrix.square_isSquare a.n a hsa
  have hp : DynMatrix.pow T a (k : Int) = DynMatrix.mulRepeat T k c a := by
    rw [DynMatrix.pow, if_pos hq, h1, Option.some_bind,
      DynMatrix.powLoop_eq_mulRepeat T hassoc a.n 64 k c a hk h2 hsa]
  obtain ⟨d, h3, _⟩ := DynMatrix.mulRepeat_square T a.n k c a h2 hsa
  refine ⟨?_, by rw [hp, h3]; rfl⟩
  rw [hp, DynMatrix.naivePow, h1, Option.some_bind, Int.toNat_ofNat]

/-- Witness of C18 over the integers: `[[1,1],[1,0]].pow(10)` against ten multiplications
by the library's `operator*`. -/
theorem C18_pow_refines_repeated_multiplication_witness :
    DynMatrix.pow intSemiring ⟨[[1, 1], [1, 0]], 2, 2, true⟩ 10 =
        DynMatrix.naivePow intSemiring ⟨[[1, 1], [1, 0]], 2, 2, true⟩ (10 : Int).toNat ∧
      (DynMatrix.pow intSemiring ⟨[[1, 1], [1, 0]], 2, 2, true⟩ 10).isSome = true :=
  C18_pow_refines_repeated_multiplication intSemiring Int.mul_assoc
    ⟨[[1, 1], [1, 0]], 2, 2, true⟩ (by simp [DynMatrix.WF, Shaped]) rfl 10 (by decide)
    (by decide)

/-- C20. For every semiring `T`, every well-formed `DynMatrix` `A` and every exponent
`e < 2^63` (every `int64_t` value): if `A` is square and `e ≤ 0`, negative included,
`A.pow(e)` returns `identity(n)`; and `A.pow(e)` fails exactly when `A` is not square. -/
theorem C20_pow_accepts_nonpositive_exponent {V : Type} (T : SemiringOps V)
    (a : DynMatrix V) (ha : a.WF) (e : Int) (h63 : e < 2 ^ 63) :
    (a.isSquare = true → e ≤ 0 →
        ∃ c, DynMatrix.pow T a e = some c ∧ DynMatrix.identity T a.n = some c) ∧
      (DynMatrix.pow T a e = none ↔ a.isSquare = false) := by
  obtain ⟨c, h1, h2, _⟩ := DynMatrix.dyn_identity_spec T a.n ha.1
  constructor
  · intro hq he
    exact ⟨c, by rw [DynMatrix.pow, if_pos hq, h1, Option.some_bind,
      DynMatrix.powLoop_nonpos T 64 e he], h1⟩
  · cases hq : a.isSquare with
    | false =>
      refine ⟨fun _ => rfl, fun _ => ?_⟩
      rw [DynMatrix.pow, hq]
      rfl
    | true =>
      have hsq : a.n = a.m := by
        have h3 := ha.2.2.2
        rw [hq] at h3
        exact of_decide_eq_true h3.symm
      have hsa : DynMatrix.Square a.n a := ⟨ha, rfl, hsq.symm⟩
      have hsome : ∃ d, DynMatrix.pow T a e = some d := by
        rcases Int.lt_or_le 0 e with hpos | hnon
        · obtain ⟨k, rfl⟩ := Int.eq_ofNat_of_zero_le (Int.le_of_lt hpos)
          have hk : k < 2 ^ 64 := by
            have h4 : (k : Int) < 2 ^ 64 := by omega
            exact_mod_cast h4
          obtain ⟨d, h5, _⟩ := DynMatrix.powLoop_terminates T a.n 64 k c a hk h2 hsa
          exact ⟨d, by rw [DynMatrix.pow, if_pos hq, h1, Option.some_bind, h5]⟩
        · exact ⟨c, by rw [DynMatrix.pow, if_pos hq, h1, Option.some_bind,
            DynMatrix.powLoop_nonpos T 64 e hnon]⟩
      obtain ⟨d, hd⟩ := hsome
      refine ⟨fun h => ?_, fun h => by simp at h⟩
      rw [hd] at h
      exact absurd h (by simp)

/-- Witness of C20 over the integers: `[[1,1],[1,0]].pow(-3)` returns `identity(2)`, and
the 2×3 matrix `[[1,2,3],[4,5,6]]` is rejected. -/
theorem C20_pow_accepts_nonpositive_exponent_witness :
    ((true = true → (-3 : Int) ≤ 0 →
        ∃ c, DynMatrix.pow intSemiring ⟨[[1, 1], [1, 0]], 2, 2, true⟩ (-3) = some c ∧
          DynMatrix.identity intSemiring 2 = some c) ∧
      (DynMatrix.pow intSemiring ⟨[[1, 1], [1, 0]], 2, 2, true⟩ (-3) = none ↔
        true = false)) ∧
      DynMatrix.pow intSemiring ⟨[[1, 1], [1, 0]], 2, 2, true⟩ (-3)
        = some ⟨[[1, 0], [0, 1]], 2, 2, true⟩ ∧
      DynMatrix.pow intSemiring ⟨[[1, 2, 3], [4, 5, 6]], 2, 3, false⟩ (-3) = none :=
  ⟨C20_pow_accepts_nonpositive_exponent intSemiring ⟨[[1, 1], [1, 0]], 2, 2, true⟩
      (by simp [DynMatrix.WF, Shaped]) (-3) (by decide),
    by decide, by decide⟩

end math

end mo
